import Mathlib

/-!
Verification of the embedded-CSS-to-inline-style converter (`src/main.js`,
class `SVGConverter`).

Strings are modelled as `List Char` (`LStr`): every JavaScript string
operation used by the source (`split`, `indexOf`, `substring`, `trim`,
template concatenation) is embedded as an explicit function on character
lists.  JavaScript objects used as ordered string maps (`styles[prop] =
value`) are modelled as association lists with an insert operation that
updates the first matching key in place and appends unknown keys
(`objInsert`), which is exactly the key-ordering behaviour of object
literals and of `{...a, ...b}` spreads.

The DOM tree is modelled by `Elem` (tag, insertion-ordered attribute list,
ordered children, own text).  Elements inside a fixed tree are addressed
by child-index paths; attribute mutation (`setAttribute`,
`removeAttribute`) becomes a functional update at a path (`updAttrs`),
which is adequate because the converter performs no structural mutation
after the style elements have been detached.  The browser-provided
structural selector query (`querySelectorAll(rule.selector)`) is an
external collaborator capability and is passed in as a function `q`
returning the (document-ordered) paths of matched elements; the two
concrete queries `querySelectorAll('style')` and
`querySelectorAll('[class]')` are embedded structurally (`styleTexts`,
`classPaths`).  `DOMParser`/`parsererror`/`querySelector('svg')` are
likewise external; `convertSVG` takes the parse outcome as a function.
-/

/-- JavaScript strings, as character lists. -/
abbrev LStr := List Char

/-- Coerce a Lean string literal to the character-list model. -/
def str (s : String) : LStr := s.data

/-- Whitespace as recognised by `String.prototype.trim` (ASCII part). -/
def isWS (c : Char) : Bool := c = ' ' || c = '\t' || c = '\n' || c = '\r'

/-- JavaScript `s.trim()`. -/
def jsTrim (cs : LStr) : LStr := ((cs.dropWhile isWS).reverse.dropWhile isWS).reverse

/-- JavaScript `s.split(sep)` for a one-character separator: always returns
at least one (possibly empty) fragment. -/
def splitCh (sep : Char) : LStr → List LStr
  | [] => [[]]
  | c :: rest =>
    if c = sep then [] :: splitCh sep rest
    else
      match splitCh sep rest with
      | [] => [[c]]
      | r :: rs => (c :: r) :: rs

/-- JavaScript `s.indexOf` restricted to a character predicate: index of the
first character satisfying `p`, if any. -/
def firstIdx (p : Char → Bool) : LStr → Option Nat
  | [] => none
  | c :: rest => if p c then some 0 else (firstIdx p rest).map (· + 1)

/-- `Array.prototype.join(sep)` for a one-character separator. -/
def joinSep (sep : Char) : List LStr → LStr
  | [] => []
  | [x] => x
  | x :: xs => x ++ sep :: joinSep sep xs

/-- Ordered string-keyed maps (JavaScript object literals). -/
abbrev Styles := List (LStr × LStr)

/-- Element attribute lists share the representation. -/
abbrev Attrs := List (LStr × LStr)

/-- Value of key `k` (first occurrence). -/
def lookupS (k : LStr) : Styles → Option LStr
  | [] => none
  | (k', v) :: rest => if k' = k then some v else lookupS k rest

/-- JavaScript `obj[k] = v` on an object representing an ordered map: an
existing key keeps its position and gets the new value, a new key is
appended. -/
def objInsert : Styles → LStr → LStr → Styles
  | [], k, v => [(k, v)]
  | (k', v') :: rest, k, v =>
    if k' = k then (k, v) :: rest else (k', v') :: objInsert rest k v

/-- One loop body of `parseStyleDeclarations` / `parseInlineStyle`
(src/main.js lines 260-269 and 296-305): split the fragment at the first
`:`; keep it only when that index is positive and both trimmed sides are
non-empty. -/
def declStep (m : Styles) (declaration : LStr) : Styles :=
  match firstIdx (· == ':') declaration with
  | some colonIndex =>
    if 0 < colonIndex then
      let property := jsTrim (declaration.take colonIndex)
      let value := jsTrim (declaration.drop (colonIndex + 1))
      if property ≠ [] ∧ value ≠ [] then objInsert m property value else m
    else m
  | none => m

/-- `parseStyleDeclarations` (src/main.js lines 256-272). -/
def parseStyleDeclarations (declarations : LStr) : Styles :=
  (splitCh ';' declarations).foldl declStep []

/-- `parseInlineStyle` (src/main.js lines 291-308); the early return models
`if (!styleString) return styles`. -/
def parseInlineStyle (styleString : LStr) : Styles :=
  if styleString = [] then [] else (splitCh ';' styleString).foldl declStep []

/-- The `{...existingStyles, ...newStyles}` spread of src/main.js line 280. -/
def mergeObj (old incoming : Styles) : Styles :=
  incoming.foldl (fun m p => objInsert m p.1 p.2) old

/-- `Object.entries(...).map(([p,v]) => p+":"+v).join(";")`
(src/main.js lines 283-285). -/
def serializeStyles (m : Styles) : LStr :=
  joinSep ';' (m.map fun p => p.1 ++ ':' :: p.2)

/-- The string `"style"`: tag of style elements and name of the inline
style attribute. -/
def styleT : LStr := str "style"

/-- The string `"class"`. -/
def classT : LStr := str "class"

/-- DOM `getAttribute` (absent attribute modelled as `none`). -/
def getAttr (attrs : Attrs) (name : LStr) : Option LStr := lookupS name attrs

/-- DOM `setAttribute`: update in place or append. -/
def setAttr (attrs : Attrs) (name value : LStr) : Attrs := objInsert attrs name value

/-- DOM `removeAttribute`. -/
def removeAttr (attrs : Attrs) (name : LStr) : Attrs :=
  attrs.filter fun p => decide (p.1 ≠ name)

/-- `applyStylesToElement` (src/main.js lines 274-289), acting on the
attribute list of the element: read the current `style` attribute text
(empty when absent), parse it, merge with spread semantics, serialize the
merged map and write it back. -/
def applyStylesToElement (attrs : Attrs) (newStyles : Styles) : Attrs :=
  let existingStyle := (getAttr attrs styleT).getD []
  let existingStyles := parseInlineStyle existingStyle
  let mergedStyles := mergeObj existingStyles newStyles
  setAttr attrs styleT (serializeStyles mergedStyles)

/-- A parsed CSS rule vs `{ selector, styles }` of src/main.js line 249. -/
structure Rule where
  selector : LStr
  styles : Styles
deriving DecidableEq

/-- State machine equivalent of the global regex loop
`/([^{}]+)\{([^{}]*)\}/g` of `parseCSS` (src/main.js lines 240-243):
`buf` holds the characters read since the last brace (or last emitted
match), `cur = some sel` means a `{` was passed with candidate selector
`sel`.  A `{` always starts a new block whose candidate selector is the
current buffer (the regex backtracks to the latest brace-free run);
a `}` inside a block emits the pair when the selector run is non-empty
(`[^{}]+` needs at least one character) and always resets the scan,
exactly as `exec` resumes after the match. -/
def scanCSS : LStr → LStr → Option LStr → List (LStr × LStr)
  | [], _, _ => []
  | '{' :: rest, buf, _ => scanCSS rest [] (some buf)
  | '}' :: rest, _, none => scanCSS rest [] none
  | '}' :: rest, buf, some sel =>
    if sel ≠ [] then (sel, buf) :: scanCSS rest [] none else scanCSS rest [] none
  | c :: rest, buf, cur => scanCSS rest (buf ++ [c]) cur

/-- `parseCSS` (src/main.js lines 238-254): keep a matched block only when
both the trimmed selector and the trimmed declaration text are non-empty. -/
def parseCSS (cssText : LStr) : List Rule :=
  (scanCSS cssText [] none).filterMap fun sd =>
    let selector := jsTrim sd.1
    let declarations := jsTrim sd.2
    if selector ≠ [] ∧ declarations ≠ [] then
      some { selector := selector, styles := parseStyleDeclarations declarations }
    else none

/-- A DOM element: tag name, insertion-ordered attributes, ordered element
children, own text content (used for the CSS text of style elements). -/
inductive Elem where
  | mk (tag : LStr) (attrs : Attrs) (children : List Elem) (text : LStr)

def Elem.tag : Elem → LStr
  | .mk t _ _ _ => t

def Elem.attrs : Elem → Attrs
  | .mk _ a _ _ => a

def Elem.children : Elem → List Elem
  | .mk _ _ cs _ => cs

def Elem.text : Elem → LStr
  | .mk _ _ _ x => x

/-- A path addresses an element of a fixed tree by child indices; `[]` is
the root. -/
abbrev EPath := List Nat

/-- Element at a path, if the path is valid. -/
def getAt (e : Elem) : EPath → Option Elem
  | [] => some e
  | i :: p =>
    match e.children[i]? with
    | some c => getAt c p
    | none => none

/-- Rewrite the attribute list of the element at a path (identity on an
invalid path).  All mutation performed by the two matching passes —
`setAttribute('style', ...)` and `removeAttribute('class')` — is of this
shape; the tree structure is never changed by them. -/
def updAttrs : Elem → EPath → (Attrs → Attrs) → Elem
  | .mk t a cs x, [], f => .mk t (f a) cs x
  | .mk t a cs x, i :: p, f =>
    match cs[i]? with
    | some c => .mk t a (cs.set i (updAttrs c p f)) x
    | none => .mk t a cs x

/-- `this.applyStylesToElement(element, rule.styles)` at a path. -/
def applyAt (t : Elem) (p : EPath) (styles : Styles) : Elem :=
  updAttrs t p (fun a => applyStylesToElement a styles)

/-- `element.removeAttribute('class')` at a path. -/
def removeClassAt (t : Elem) (p : EPath) : Elem :=
  updAttrs t p (fun a => removeAttr a classT)

mutual
/-- Text contents of the style elements strictly below `e`, in document
order: the static `svg.querySelectorAll('style')` list of src/main.js
line 193 together with the `styleEl.textContent` reads of line 198. -/
def styleTexts : Elem → List LStr
  | .mk _ _ cs _ => styleTextsL cs

def styleTextsL : List Elem → List LStr
  | [] => []
  | c :: cs => ((if c.tag = styleT then [c.text] else []) ++ styleTexts c) ++ styleTextsL cs
end

mutual
/-- The tree after `styleEl.parentNode.removeChild(styleEl)` has detached
every style element found by the query (src/main.js line 203): every
style-tagged descendant is gone together with its subtree. -/
def removeStyleElems : Elem → Elem
  | .mk t a cs x => .mk t a (removeStyleElemsL cs) x

def removeStyleElemsL : List Elem → List Elem
  | [] => []
  | c :: cs =>
    (if c.tag = styleT then [] else [removeStyleElems c]) ++ removeStyleElemsL cs
end

mutual
/-- Paths of the elements matched by `svg.querySelectorAll('[class]')`
(src/main.js line 217): every element strictly below the root carrying a
`class` attribute (any value), in document order. -/
def classPaths : Elem → List EPath
  | .mk _ _ cs _ => classPathsL 0 cs

def classPathsL : Nat → List Elem → List EPath
  | _, [] => []
  | i, c :: cs =>
    ((if (getAttr c.attrs classT).isSome then [[i]] else []) ++
      (classPaths c).map (i :: ·)) ++ classPathsL (i + 1) cs
end

/-- The inner `elements.forEach` of the structural pass (src/main.js
lines 209-212): merge the rule's declarations into every matched element. -/
def applyToMatches (t : Elem) (ps : List EPath) (styles : Styles) : Elem :=
  ps.foldl (fun acc p => applyAt acc p styles) t

/-- One iteration of `cssRules.forEach` in the structural pass
(src/main.js lines 207-214), on the state (tree, processedElements,
convertedStyles): query the current tree with the rule's selector via the
collaborator capability `q`, merge into each match (counting each merge),
then count the rule once. -/
def structuralPassStep (q : Elem → LStr → List EPath) (s : Elem × Nat × Nat) (r : Rule) :
    Elem × Nat × Nat :=
  let ps := q s.1 r.selector
  (applyToMatches s.1 ps r.styles, s.2.1 + ps.length, s.2.2 + 1)

/-- The structural pass (src/main.js lines 206-214). -/
def structuralPass (q : Elem → LStr → List EPath) (rules : List Rule) (t : Elem) :
    Elem × Nat × Nat :=
  rules.foldl (structuralPassStep q) (t, 0, 0)

/-- One iteration of `elementsWithClass.forEach` (src/main.js
lines 218-233) on (tree, processedElements): read the element's `class`
attribute; when it is present and non-empty (`if (className)`), merge
every rule whose selector is textually `.<class>` or `*[class~="<class>"]`
(counting each merge) and then remove the `class` attribute; otherwise —
including the empty-string value — do nothing. -/
def classPassStep (cssRules : List Rule) (s : Elem × Nat) (p : EPath) : Elem × Nat :=
  match getAt s.1 p with
  | none => s
  | some e =>
    match getAttr e.attrs classT with
    | none => s
    | some className =>
      if className = [] then s
      else
        let matched := cssRules.filter fun r =>
          decide (r.selector = '.' :: className ∨
            r.selector = str "*[class~=\"" ++ className ++ str "\"]")
        let t1 := matched.foldl (fun t r => applyAt t p r.styles) s.1
        (removeClassAt t1 p, s.2 + matched.length)

/-- The class-fallback pass (src/main.js lines 216-233): the element list
is the static query result on the tree entering the pass. -/
def classPass (cssRules : List Rule) (t : Elem) : Elem × Nat :=
  (classPaths t).foldl (classPassStep cssRules) (t, 0)

/-- The `{ convertedStyles, processedElements, cssRules }` result of
src/main.js line 235, together with the converted tree. -/
structure ConvResult where
  convertedStyles : Nat
  processedElements : Nat
  cssRules : List Rule
  tree : Elem

/-- `convertEmbeddedCSSToInline` (src/main.js lines 188-236): extract and
detach all style blocks (accumulating `cssRules.push(...rules)` in
document order), run the structural pass with the collaborator selector
query `q`, then the class-fallback pass; `processedElements` adds the
merge counts of the two passes. -/
def convertEmbeddedCSSToInline (q : Elem → LStr → List EPath) (svg : Elem) : ConvResult :=
  let cssRules := (styleTexts svg).foldl (fun acc txt => acc ++ parseCSS txt) []
  let t1 := removeStyleElems svg
  let s2 := structuralPass q cssRules t1
  let s3 := classPass cssRules s2.1
  { convertedStyles := s2.2.2
    processedElements := s2.2.1 + s3.2
    cssRules := cssRules
    tree := s3.1 }

/-- Outcome of the external `DOMParser` + `doc.querySelector` calls of
src/main.js lines 151-161: the parsed document contains a `parsererror`
element, or contains no `svg` element, or yields the root svg element. -/
inductive ParseOutcome where
  | withParserError
  | noSvgElement
  | parsed (svg : Elem)

/-- Observable outcome of one `convertSVG` call (src/main.js
lines 143-186): the early return on blank input, the catch branch with its
error message, or a successful conversion carrying the converted tree and
the statistics. -/
inductive ConvertStatus where
  | ready
  | failed (message : LStr)
  | succeeded (tree : Elem) (stats : ConvResult)

/-- `convertSVG` (src/main.js lines 143-186) with the document parser as
an explicit collaborator function from the trimmed input text. -/
def convertSVG (parse : LStr → ParseOutcome) (q : Elem → LStr → List EPath)
    (input : LStr) : ConvertStatus :=
  let svgContent := jsTrim input
  if svgContent = [] then .ready
  else
    match parse svgContent with
    | .withParserError => .failed (str "Invalid SVG format")
    | .noSvgElement => .failed (str "No SVG element found")
    | .parsed svg =>
      let result := convertEmbeddedCSSToInline q svg
      .succeeded result.tree result

/-- `[a-zA-Z0-9]` of the `formatXML` regexes. -/
def isAlnum (c : Char) : Bool := c.isAlpha || c.isDigit

/-- First `.replace` of `formatXML` (src/main.js line 313): every `><`
becomes `>\n<`; the global scan resumes after each replacement. -/
def insertNL : LStr → LStr
  | [] => []
  | [c] => [c]
  | c1 :: c2 :: rest =>
    if c1 = '>' ∧ c2 = '<' then '>' :: '\n' :: '<' :: insertNL rest
    else c1 :: insertNL (c2 :: rest)

/-- Match `<\/[a-zA-Z0-9]+>` at the head of the string, returning the
matched text and the remainder.  The greedy `[a-zA-Z0-9]+` run followed by
the mandatory `>` is deterministic, so no backtracking is lost. -/
def matchCloseTag : LStr → Option (LStr × LStr)
  | '<' :: '/' :: rest =>
    if rest.takeWhile isAlnum = [] then none
    else
      match rest.dropWhile isAlnum with
      | '>' :: r => some ('<' :: '/' :: (rest.takeWhile isAlnum ++ ['>']), r)
      | _ => none
  | _ => none

/-- Match `<[a-zA-Z0-9][^>]*>` at the head of the string, returning the
matched text and the remainder; `[^>]*` up to the mandatory `>` is
deterministic. -/
def matchOpenTag : LStr → Option (LStr × LStr)
  | '<' :: c :: rest =>
    if isAlnum c then
      match rest.dropWhile (· != '>') with
      | '>' :: r => some ('<' :: c :: (rest.takeWhile (· != '>') ++ ['>']), r)
      | _ => none
    else none
  | _ => none

/-- Global replace of two adjacent matches of `M` by first-match, `sep`,
second-match: the scan advances one character on failure and resumes after
the whole match on success, as `String.prototype.replace` with a global
regex does.  The fuel argument is initialised with the string length,
which each step strictly exceeds in consumption, so it never runs out. -/
def pairScanGo (M : LStr → Option (LStr × LStr)) (sep : LStr) : Nat → LStr → LStr
  | 0, cs => cs
  | _ + 1, [] => []
  | fuel + 1, c :: rest =>
    match M (c :: rest) with
    | some (t1, r1) =>
      match M r1 with
      | some (t2, r2) => t1 ++ sep ++ t2 ++ pairScanGo M sep fuel r2
      | none => c :: pairScanGo M sep fuel rest
    | none => c :: pairScanGo M sep fuel rest

/-- Second `.replace` of `formatXML` (src/main.js line 314):
`/(<\/[a-zA-Z0-9]+>)(<\/[a-zA-Z0-9]+>)/g` → `$1\n$2`. -/
def sepCloseTags (cs : LStr) : LStr := pairScanGo matchCloseTag ['\n'] cs.length cs

/-- Third `.replace` of `formatXML` (src/main.js line 315):
`/(<[a-zA-Z0-9][^>]*>)(<[a-zA-Z0-9][^>]*>)/g` → `$1\n  $2`. -/
def sepOpenTags (cs : LStr) : LStr := pairScanGo matchOpenTag ('\n' :: str "  ") cs.length cs

/-- Fourth `.replace` of `formatXML` (src/main.js line 316):
`/  (<\/[a-zA-Z0-9]+>)/g` → `$1`, i.e. drop two spaces immediately before
a closing tag; same scanning discipline as `pairScanGo`. -/
def stripGo : Nat → LStr → LStr
  | 0, cs => cs
  | _ + 1, [] => []
  | fuel + 1, ' ' :: ' ' :: rest =>
    (match matchCloseTag rest with
     | some (t, r) => t ++ stripGo fuel r
     | none => ' ' :: stripGo fuel (' ' :: rest))
  | fuel + 1, c :: rest => c :: stripGo fuel rest

/-- The fourth `.replace` of `formatXML`, fuel initialised. -/
def stripCloseIndent (cs : LStr) : LStr := stripGo cs.length cs

/-- `formatXML` (src/main.js lines 310-317): the four chained global
replaces. -/
def formatXML (xmlString : LStr) : LStr :=
  stripCloseIndent (sepOpenTags (sepCloseTags (insertNL xmlString)))

/-- Whether the string starts with `<`. -/
def startsLt : LStr → Bool
  | [] => false
  | c :: _ => decide (c = '<')

/-- Whether the string contains the two-character substring `><`. -/
def hasGtLt : LStr → Bool
  | [] => false
  | c :: rest => (decide (c = '>') && startsLt rest) || hasGtLt rest

/-- Modelled from the claim wording for the declaration parser: a fragment
is kept exactly when it contains a `:` at an index strictly greater than
zero and both the trimmed text before the first `:` and the trimmed text
after it are non-empty. -/
def specKeep (fragment : LStr) : Option (LStr × LStr) :=
  if ':' ∈ fragment.drop 1 then
    match firstIdx (· == ':') fragment with
    | some i =>
      let property := jsTrim (fragment.take i)
      let value := jsTrim (fragment.drop (i + 1))
      if property ≠ [] ∧ value ≠ [] then some (property, value) else none
    | none => none
  else none

/-- Number of (rule, element) merges the structural pass performs: for
each rule in order, the number of elements the collaborator query returns
on the tree as it stands when the rule is processed. -/
def pass1MergeCount (q : Elem → LStr → List EPath) : Elem → List Rule → Nat
  | _, [] => 0
  | t, r :: rs =>
    (q t r.selector).length +
      pass1MergeCount q (applyToMatches t (q t r.selector) r.styles) rs

/-- Number of (rule, element) merges the class-fallback pass performs on
the given (statically computed) element list. -/
def pass2MergeCount (cssRules : List Rule) : Elem → List EPath → Nat
  | _, [] => 0
  | t, p :: ps =>
    (classPassStep cssRules (t, 0) p).2 +
      pass2MergeCount cssRules (classPassStep cssRules (t, 0) p).1 ps

/-- Well-formedness of one property/value entry: non-empty, trimmed, no
`;` anywhere and no `:` in the property name — exactly what the
declaration parser outputs, and what makes serialization re-parsable. -/
def wfEntry (p : LStr × LStr) : Bool :=
  decide (p.1 ≠ [] ∧ jsTrim p.1 = p.1 ∧ ':' ∉ p.1 ∧ ';' ∉ p.1 ∧
    p.2 ≠ [] ∧ jsTrim p.2 = p.2 ∧ ';' ∉ p.2)

/-- Pairwise-distinct keys (JavaScript objects cannot carry duplicates). -/
def keysNodup : Styles → Bool
  | [] => true
  | (k, _) :: rest => rest.all (fun p => decide (p.1 ≠ k)) && keysNodup rest

/-- A well-formed style map. -/
def wfStyles (m : Styles) : Bool := keysNodup m && m.all wfEntry

/-- The entries of `old` with values overwritten by `incoming` where the
key collides (order of `old` kept). -/
def updMap (old incoming : Styles) : Styles :=
  old.map fun p => (p.1, (lookupS p.1 incoming).getD p.2)

/-- The entries of `incoming` whose keys are new (order of `incoming`
kept). -/
def newOnly (old incoming : Styles) : Styles :=
  incoming.filter fun p => (lookupS p.1 old).isNone

/-- The spec's E2E-1 input tree:
`<svg><style>.c{fill:red;}</style><rect class="c"/></svg>`. -/
def svgE2E : Elem :=
  .mk (str "svg") []
    [.mk styleT [] [] (str ".c{fill:red;}"),
     .mk (str "rect") [(classT, str "c")] [] []] []

/-- A collaborator query matching selector `.c` to the rect of `svgE2E`
(child 0 once the style element is detached) and nothing else. -/
def qE2E : Elem → LStr → List EPath :=
  fun _ sel => if sel = str ".c" then [[0]] else []

/-- A tree whose only element below the root carries `class=""`. -/
def svgEmptyClass : Elem :=
  .mk (str "svg") [] [.mk (str "rect") [(classT, [])] [] []] []

/-- A collaborator query that never matches. -/
def qNil : Elem → LStr → List EPath := fun _ _ => []

/-- The `class` attribute value observed at a path: `none` when the path is
invalid, `some none` when the element has no `class` attribute. -/
def classAttrAt (t : Elem) (p : EPath) : Option (Option LStr) :=
  (getAt t p).map fun e => getAttr e.attrs classT

/-- The element at the path (if any) carries no `class` attribute, or an
empty-valued one. -/
def ClassCleared (t : Elem) (p : EPath) : Prop :=
  ∀ v, classAttrAt t p = some v → v = none ∨ v = some []

theorem dropWhile_dropWhile (p : Char → Bool) (l : LStr) :
    List.dropWhile p (List.dropWhile p l) = List.dropWhile p l := by
  induction l with
  | nil => rfl
  | cons c l ih =>
    by_cases h : p c = true
    · simp [List.dropWhile_cons, h, ih]
    · simp only [Bool.not_eq_true] at h
      simp [List.dropWhile_cons, h]

theorem dropWhile_trimEnd (p : Char → Bool) (m : LStr) (h : m.dropWhile p = m) :
    (m.reverse.dropWhile p).reverse.dropWhile p = (m.reverse.dropWhile p).reverse := by
  cases m with
  | nil => rfl
  | cons c m' =>
    have hc : p c = false := by
      by_cases hb : p c = true
      · exfalso
        rw [List.dropWhile_cons, if_pos hb] at h
        have := (List.dropWhile_sublist (l := m') p).length_le
        have := congrArg List.length h
        simp at this
        omega
      · simpa using hb
    rw [List.reverse_cons, List.dropWhile_append]
    by_cases he : (m'.reverse.dropWhile p).isEmpty = true
    · rw [if_pos he]
      simp [List.dropWhile_cons, hc]
    · rw [if_neg he, List.reverse_append]
      simp [List.dropWhile_cons, hc]

theorem jsTrim_dropWhile (cs : LStr) : (jsTrim cs).dropWhile isWS = jsTrim cs := by
  unfold jsTrim
  exact dropWhile_trimEnd isWS (cs.dropWhile isWS) (dropWhile_dropWhile isWS cs)

theorem jsTrim_idem (cs : LStr) : jsTrim (jsTrim cs) = jsTrim cs := by
  unfold jsTrim
  rw [show ((cs.dropWhile isWS).reverse.dropWhile isWS).reverse.dropWhile isWS
      = ((cs.dropWhile isWS).reverse.dropWhile isWS).reverse from jsTrim_dropWhile cs]
  rw [List.reverse_reverse, dropWhile_dropWhile]

theorem mem_jsTrim {x : Char} {cs : LStr} (h : x ∈ jsTrim cs) : x ∈ cs := by
  unfold jsTrim at h
  rw [List.mem_reverse] at h
  have h1 := List.Sublist.mem h (List.dropWhile_sublist isWS)
  rw [List.mem_reverse] at h1
  exact List.Sublist.mem h1 (List.dropWhile_sublist isWS)

theorem splitCh_ne_nil (sep : Char) (cs : LStr) : splitCh sep cs ≠ [] := by
  cases cs with
  | nil => simp [splitCh]
  | cons c rest =>
    rw [splitCh]
    by_cases h : c = sep
    · simp [h]
    · rw [if_neg h]
      cases hr : splitCh sep rest <;> simp

theorem not_mem_of_mem_splitCh (sep : Char) (cs : LStr) :
    ∀ frag ∈ splitCh sep cs, sep ∉ frag := by
  induction cs with
  | nil =>
    intro frag hf
    simp [splitCh] at hf
    simp [hf]
  | cons c rest ih =>
    intro frag hf
    rw [splitCh] at hf
    by_cases h : c = sep
    · rw [if_pos h] at hf
      rcases List.mem_cons.mp hf with h1 | h1
      · simp [h1]
      · exact ih frag h1
    · rw [if_neg h] at hf
      cases hr : splitCh sep rest with
      | nil => exact absurd hr (splitCh_ne_nil sep rest)
      | cons r rs =>
        rw [hr] at hf
        rcases List.mem_cons.mp hf with h1 | h1
        · subst h1
          intro hmem
          rcases List.mem_cons.mp hmem with h2 | h2
          · exact h h2.symm
          · exact ih r (hr ▸ List.mem_cons_self r rs) h2
        · exact ih frag (hr ▸ List.mem_cons_of_mem r h1)

theorem splitCh_not_mem {sep : Char} {cs : LStr} (h : sep ∉ cs) : splitCh sep cs = [cs] := by
  induction cs with
  | nil => rfl
  | cons c rest ih =>
    rw [splitCh]
    have hc : ¬ c = sep := fun he => h (he ▸ List.mem_cons_self c rest)
    rw [if_neg hc, ih (fun hm => h (List.mem_cons_of_mem c hm))]

theorem splitCh_append {sep : Char} (a b : LStr) (h : sep ∉ a) :
    splitCh sep (a ++ sep :: b) = a :: splitCh sep b := by
  induction a with
  | nil => simp [splitCh]
  | cons c a' ih =>
    have hc : ¬ c = sep := fun he => h (he ▸ List.mem_cons_self c a')
    rw [List.cons_append, splitCh, if_neg hc,
      ih (fun hm => h (List.mem_cons_of_mem c hm))]

theorem splitCh_joinSep {sep : Char} (parts : List LStr)
    (h : ∀ x ∈ parts, sep ∉ x) (hne : parts ≠ []) :
    splitCh sep (joinSep sep parts) = parts := by
  induction parts with
  | nil => exact absurd rfl hne
  | cons x xs ih =>
    cases xs with
    | nil =>
      rw [joinSep]
      exact splitCh_not_mem (h x (List.mem_cons_self x []))
    | cons y rest =>
      rw [show joinSep sep (x :: y :: rest) = x ++ sep :: joinSep sep (y :: rest) from rfl]
      rw [splitCh_append x _ (h x (List.mem_cons_self x _))]
      rw [ih (fun z hz => h z (List.mem_cons_of_mem x hz)) (List.cons_ne_nil y rest)]

theorem firstIdx_append {p : Char → Bool} (k : LStr) (hk : ∀ x ∈ k, p x = false)
    {c0 : Char} (hc : p c0 = true) (v : LStr) :
    firstIdx p (k ++ c0 :: v) = some k.length := by
  induction k with
  | nil => simp [firstIdx, hc]
  | cons c k' ih =>
    rw [List.cons_append, firstIdx, hk c (List.mem_cons_self c k')]
    simp only [Bool.false_eq_true, if_false]
    rw [ih (fun x hx => hk x (List.mem_cons_of_mem c hx))]
    rfl

theorem firstIdx_take {p : Char → Bool} {cs : LStr} {i : Nat}
    (h : firstIdx p cs = some i) : ∀ x ∈ cs.take i, p x = false := by
  induction cs generalizing i with
  | nil => simp [firstIdx] at h
  | cons c rest ih =>
    rw [firstIdx] at h
    by_cases hc : p c = true
    · rw [if_pos hc] at h
      cases h
      intro x hx
      exact absurd hx (by simp)
    · rw [if_neg hc] at h
      cases hj : firstIdx p rest with
      | none => rw [hj] at h; cases h
      | some j =>
        rw [hj] at h
        simp only [Option.map] at h
        cases h
        intro x hx
        rw [List.take_succ_cons] at hx
        rcases List.mem_cons.mp hx with h1 | h1
        · subst h1; simpa using hc
        · exact ih hj x h1

theorem lookupS_append (k : LStr) (a b : Styles) :
    lookupS k (a ++ b) = (lookupS k a).or (lookupS k b) := by
  induction a with
  | nil => simp [lookupS]
  | cons p rest ih =>
    obtain ⟨k2, v2⟩ := p
    rw [List.cons_append, lookupS, lookupS]
    by_cases h : k2 = k
    · simp [h]
    · simp only [if_neg h]
      exact ih

theorem lookupS_objInsert_self (m : Styles) (k v : LStr) :
    lookupS k (objInsert m k v) = some v := by
  induction m with
  | nil => simp [objInsert, lookupS]
  | cons p rest ih =>
    obtain ⟨k2, v2⟩ := p
    rw [objInsert]
    by_cases h : k2 = k
    · rw [if_pos h, lookupS, if_pos rfl]
    · rw [if_neg h, lookupS, if_neg h, ih]

theorem lookupS_objInsert_ne (m : Styles) {k k2 : LStr} (v : LStr) (h : k2 ≠ k) :
    lookupS k (objInsert m k2 v) = lookupS k m := by
  induction m with
  | nil => simp [objInsert, lookupS, h]
  | cons p rest ih =>
    obtain ⟨k3, v3⟩ := p
    rw [objInsert]
    by_cases h3 : k3 = k2
    · rw [if_pos h3, lookupS, lookupS, if_neg h, h3, if_neg h]
    · rw [if_neg h3, lookupS, lookupS, ih]

theorem objInsert_not_mem (m : Styles) (k v : LStr) (h : lookupS k m = none) :
    objInsert m k v = m ++ [(k, v)] := by
  induction m with
  | nil => rfl
  | cons p rest ih =>
    obtain ⟨k2, v2⟩ := p
    rw [lookupS] at h
    by_cases h2 : k2 = k
    · rw [if_pos h2] at h; cases h
    · rw [if_neg h2] at h
      rw [objInsert, if_neg h2, ih h, List.cons_append]

theorem mem_objInsert (m : Styles) (k v : LStr) :
    ∀ q ∈ objInsert m k v, q ∈ m ∨ q = (k, v) := by
  induction m with
  | nil => simp [objInsert]
  | cons p rest ih =>
    obtain ⟨k2, v2⟩ := p
    intro q hq
    rw [objInsert] at hq
    by_cases h2 : k2 = k
    · rw [if_pos h2] at hq
      rcases List.mem_cons.mp hq with h | h
      · exact Or.inr h
      · exact Or.inl (List.mem_cons_of_mem _ h)
    · rw [if_neg h2] at hq
      rcases List.mem_cons.mp hq with h | h
      · exact Or.inl (h ▸ List.mem_cons_self _ _)
      · rcases ih q h with h3 | h3
        · exact Or.inl (List.mem_cons_of_mem _ h3)
        · exact Or.inr h3

theorem keysNodup_objInsert (m : Styles) (k v : LStr) (h : keysNodup m = true) :
    keysNodup (objInsert m k v) = true := by
  induction m with
  | nil => simp [objInsert, keysNodup]
  | cons p rest ih =>
    obtain ⟨k2, v2⟩ := p
    rw [keysNodup, Bool.and_eq_true, List.all_eq_true] at h
    obtain ⟨h1, h2⟩ := h
    rw [objInsert]
    by_cases hk : k2 = k
    · rw [if_pos hk]
      rw [keysNodup, Bool.and_eq_true, List.all_eq_true]
      exact ⟨fun q hq => by rw [← hk]; exact h1 q hq, h2⟩
    · rw [if_neg hk]
      rw [keysNodup, Bool.and_eq_true, List.all_eq_true]
      constructor
      · intro q hq
        rcases mem_objInsert rest k v q hq with h3 | h3
        · exact h1 q h3
        · rw [h3]
          simp only [decide_eq_true_eq]
          exact fun he => hk he.symm
      · exact ih h2

theorem all_wfEntry_objInsert (m : Styles) (k v : LStr)
    (hm : m.all wfEntry = true) (hkv : wfEntry (k, v) = true) :
    (objInsert m k v).all wfEntry = true := by
  rw [List.all_eq_true] at *
  intro q hq
  rcases mem_objInsert m k v q hq with h | h
  · exact hm q h
  · rw [h]; exact hkv

theorem wfStyles_mergeObj (inc : Styles) : ∀ old : Styles, wfStyles old = true →
    inc.all wfEntry = true → wfStyles (mergeObj old inc) = true := by
  induction inc with
  | nil => intro old h _; exact h
  | cons p rest ih =>
    intro old h1 h2
    obtain ⟨k, v⟩ := p
    rw [List.all_cons, Bool.and_eq_true] at h2
    rw [mergeObj, List.foldl_cons]
    refine ih (objInsert old k v) ?_ h2.2
    rw [wfStyles, Bool.and_eq_true] at h1 ⊢
    exact ⟨keysNodup_objInsert old k v h1.1,
      all_wfEntry_objInsert old k v h1.2 h2.1⟩

theorem lookupS_mergeObj_not_mem (inc : Styles) : ∀ (old : Styles) (k : LStr),
    (∀ q ∈ inc, q.1 ≠ k) → lookupS k (mergeObj old inc) = lookupS k old := by
  induction inc with
  | nil => intro old k _; rfl
  | cons p rest ih =>
    intro old k h
    obtain ⟨k2, v2⟩ := p
    rw [mergeObj, List.foldl_cons]
    have h2 : k2 ≠ k := h (k2, v2) (List.mem_cons_self _ _)
    rw [show List.foldl (fun m p => objInsert m p.1 p.2) (objInsert old k2 v2) rest
        = mergeObj (objInsert old k2 v2) rest from rfl]
    rw [ih (objInsert old k2 v2) k (fun q hq => h q (List.mem_cons_of_mem _ hq))]
    exact lookupS_objInsert_ne old v2 h2

theorem lookupS_mergeObj_mem (inc : Styles) : ∀ (old : Styles) (k v : LStr),
    keysNodup inc = true → lookupS k inc = some v →
    lookupS k (mergeObj old inc) = some v := by
  induction inc with
  | nil => intro old k v _ h; cases h
  | cons p rest ih =>
    intro old k v hn h
    obtain ⟨k2, v2⟩ := p
    rw [keysNodup, Bool.and_eq_true, List.all_eq_true] at hn
    rw [lookupS] at h
    rw [mergeObj, List.foldl_cons]
    rw [show List.foldl (fun m p => objInsert m p.1 p.2) (objInsert old k2 v2) rest
        = mergeObj (objInsert old k2 v2) rest from rfl]
    by_cases h2 : k2 = k
    · rw [if_pos h2] at h
      cases h
      rw [lookupS_mergeObj_not_mem rest (objInsert old k2 v) k
        (fun q hq => by
          have := hn.1 q hq
          simp only [decide_eq_true_eq] at this
          exact fun he => this (he.trans h2.symm))]
      rw [h2, lookupS_objInsert_self]
    · rw [if_neg h2] at h
      exact ih (objInsert old k2 v2) k v hn.2 h

theorem firstIdx_none {p : Char → Bool} {cs : LStr} (h : firstIdx p cs = none) :
    ∀ x ∈ cs, p x = false := by
  induction cs with
  | nil => simp
  | cons c rest ih =>
    rw [firstIdx] at h
    by_cases hc : p c = true
    · rw [if_pos hc] at h; cases h
    · rw [if_neg hc] at h
      intro x hx
      rcases List.mem_cons.mp hx with h1 | h1
      · subst h1; simpa using hc
      · cases hj : firstIdx p rest with
        | none => exact ih hj x h1
        | some j => rw [hj] at h; simp at h

theorem firstIdx_some_mem {p : Char → Bool} {cs : LStr} {i : Nat}
    (h : firstIdx p cs = some i) : ∃ x ∈ cs, p x = true := by
  induction cs generalizing i with
  | nil => simp [firstIdx] at h
  | cons c rest ih =>
    rw [firstIdx] at h
    by_cases hc : p c = true
    · exact ⟨c, List.mem_cons_self c rest, hc⟩
    · rw [if_neg hc] at h
      cases hj : firstIdx p rest with
      | none => rw [hj] at h; simp at h
      | some j =>
        obtain ⟨x, hx, hpx⟩ := ih hj
        exact ⟨x, List.mem_cons_of_mem c hx, hpx⟩

theorem declStep_specKeep (m : Styles) (frag : LStr) :
    declStep m frag =
      match specKeep frag with
      | some pv => objInsert m pv.1 pv.2
      | none => m := by
  rw [declStep, specKeep]
  cases hidx : firstIdx (· == ':') frag with
  | none =>
    have hno : ¬ (':' ∈ frag.drop 1) := by
      intro hin
      have := firstIdx_none hidx ':' (List.mem_of_mem_drop hin)
      simp at this
    rw [if_neg hno]
  | some i =>
    cases i with
    | zero =>
      simp only [Nat.lt_irrefl 0, if_false]
      have hp : jsTrim (frag.take 0) = [] := by rw [List.take_zero]; rfl
      by_cases hin : ':' ∈ frag.drop 1
      · rw [if_pos hin]
        simp [show jsTrim ([] : LStr) = [] from rfl]
      · rw [if_neg hin]
    | succ j =>
      have hin : ':' ∈ frag.drop 1 := by
        cases frag with
        | nil => simp [firstIdx] at hidx
        | cons c rest =>
          rw [firstIdx] at hidx
          by_cases hc : (c == ':') = true
          · rw [if_pos hc] at hidx; cases hidx
          · rw [if_neg hc] at hidx
            cases hj : firstIdx (· == ':') rest with
            | none => rw [hj] at hidx; simp at hidx
            | some j2 =>
              obtain ⟨x, hx, hpx⟩ := firstIdx_some_mem hj
              rw [List.drop_one, List.tail_cons]
              rw [beq_iff_eq] at hpx
              exact hpx ▸ hx
      rw [if_pos hin]
      simp only [Nat.succ_pos, if_true]
      by_cases hpv : jsTrim (frag.take (j + 1)) ≠ [] ∧ jsTrim (frag.drop (j + 1 + 1)) ≠ []
      · rw [if_pos hpv, if_pos hpv]
      · rw [if_neg hpv, if_neg hpv]

theorem specKeep_wfEntry {frag : LStr} {pv : LStr × LStr}
    (h : specKeep frag = some pv) (hf : (';' : Char) ∉ frag) : wfEntry pv = true := by
  rw [specKeep] at h
  by_cases hin : ':' ∈ frag.drop 1
  swap
  · rw [if_neg hin] at h; cases h
  rw [if_pos hin] at h
  cases hidx : firstIdx (· == ':') frag with
  | none => rw [hidx] at h; cases h
  | some i =>
    rw [hidx] at h
    simp only at h
    by_cases hpv : jsTrim (frag.take i) ≠ [] ∧ jsTrim (frag.drop (i + 1)) ≠ []
    swap
    · rw [if_neg hpv] at h; cases h
    rw [if_pos hpv] at h
    cases h
    simp only [wfEntry, decide_eq_true_eq]
    refine ⟨hpv.1, jsTrim_idem _, ?_, ?_, hpv.2, jsTrim_idem _, ?_⟩
    · intro hmem
      have h1 := firstIdx_take hidx ':' (mem_jsTrim hmem)
      simp at h1
    · intro hmem
      exact hf (List.mem_of_mem_take (mem_jsTrim hmem))
    · intro hmem
      exact hf (List.mem_of_mem_drop (mem_jsTrim hmem))

theorem specKeep_render {k v : LStr} (h : wfEntry (k, v) = true) :
    specKeep (k ++ ':' :: v) = some (k, v) := by
  simp only [wfEntry, decide_eq_true_eq] at h
  obtain ⟨hk1, hk2, hk3, hk4, hv1, hv2, hv3⟩ := h
  have hidx : firstIdx (· == ':') (k ++ ':' :: v) = some k.length :=
    firstIdx_append k
      (fun x hx => beq_eq_false_iff_ne.mpr (fun he => hk3 (by rw [← he]; exact hx)))
      (by simp) v
  have hin : ':' ∈ (k ++ ':' :: v).drop 1 := by
    obtain ⟨c, k2, rfl⟩ := List.exists_cons_of_ne_nil hk1
    rw [List.cons_append, List.drop_one, List.tail_cons]
    exact List.mem_append.mpr (Or.inr (List.mem_cons_self _ _))
  rw [specKeep, if_pos hin, hidx]
  simp only
  have htake : (k ++ ':' :: v).take k.length = k := List.take_left k (':' :: v)
  have hdrop : (k ++ ':' :: v).drop (k.length + 1) = v := by
    have : k ++ ':' :: v = (k ++ [':']) ++ v := by simp
    rw [this, show k.length + 1 = (k ++ [':']).length by simp]
    exact List.drop_left (k ++ [':']) v
  rw [htake, hdrop, hk2, hv2, if_pos ⟨hk1, hv1⟩]

theorem wfStyles_foldl_declStep (frags : List LStr) : ∀ m : Styles,
    wfStyles m = true → (∀ f ∈ frags, (';' : Char) ∉ f) →
    wfStyles (frags.foldl declStep m) = true := by
  induction frags with
  | nil => intro m hm _; exact hm
  | cons f rest ih =>
    intro m hm hf
    rw [List.foldl_cons]
    refine ih (declStep m f) ?_ (fun g hg => hf g (List.mem_cons_of_mem f hg))
    rw [declStep_specKeep]
    cases hk : specKeep f with
    | none => exact hm
    | some pv =>
      have hwf := specKeep_wfEntry hk (hf f (List.mem_cons_self f rest))
      rw [wfStyles, Bool.and_eq_true] at hm ⊢
      exact ⟨keysNodup_objInsert m pv.1 pv.2 hm.1,
        all_wfEntry_objInsert m pv.1 pv.2 hm.2 (by obtain ⟨a, b⟩ := pv; exact hwf)⟩

theorem wfStyles_parseStyleDeclarations (s : LStr) :
    wfStyles (parseStyleDeclarations s) = true := by
  rw [parseStyleDeclarations]
  exact wfStyles_foldl_declStep (splitCh ';' s) [] rfl
    (not_mem_of_mem_splitCh ';' s)

theorem parseInline_eq_parseDecls (s : LStr) :
    parseInlineStyle s = parseStyleDeclarations s := by
  rw [parseInlineStyle, parseStyleDeclarations]
  by_cases h : s = []
  · rw [if_pos h]; subst h; rfl
  · rw [if_neg h]

theorem foldl_declStep_map (M : Styles) : ∀ acc : Styles,
    M.all wfEntry = true → keysNodup M = true →
    (∀ q ∈ M, lookupS q.1 acc = none) →
    (M.map (fun p => p.1 ++ ':' :: p.2)).foldl declStep acc = acc ++ M := by
  induction M with
  | nil => intro acc _ _ _; simp
  | cons p rest ih =>
    intro acc hwf hn hd
    obtain ⟨k, v⟩ := p
    rw [List.all_cons, Bool.and_eq_true] at hwf
    rw [keysNodup, Bool.and_eq_true, List.all_eq_true] at hn
    rw [List.map_cons, List.foldl_cons, declStep_specKeep, specKeep_render hwf.1]
    simp only
    rw [objInsert_not_mem acc k v (hd (k, v) (List.mem_cons_self _ _))]
    rw [ih (acc ++ [(k, v)]) hwf.2 hn.2 ?_]
    · rw [List.append_assoc]; rfl
    · intro q hq
      rw [lookupS_append]
      rw [hd q (List.mem_cons_of_mem _ hq)]
      have hqk : q.1 ≠ k := by
        have := hn.1 q hq
        simpa using this
      have hone : lookupS q.1 [(k, v)] = none := by
        rw [lookupS, if_neg (fun he => hqk he.symm)]
        rfl
      simp [hone]

theorem parse_serializeStyles {M : Styles} (h : wfStyles M = true) :
    parseStyleDeclarations (serializeStyles M) = M := by
  by_cases hM : M = []
  · subst hM; rfl
  · rw [wfStyles, Bool.and_eq_true] at h
    have hsep : ∀ x ∈ M.map (fun p => p.1 ++ ':' :: p.2), (';' : Char) ∉ x := by
      intro x hx
      obtain ⟨q, hq, rfl⟩ := List.mem_map.mp hx
      have hq2 := List.all_eq_true.mp h.2 q hq
      simp only [wfEntry, decide_eq_true_eq] at hq2
      intro hmem
      rcases List.mem_append.mp hmem with h1 | h1
      · exact hq2.2.2.2.1 h1
      · rcases List.mem_cons.mp h1 with h2 | h2
        · cases h2
        · exact hq2.2.2.2.2.2.2 h2
    rw [serializeStyles, parseStyleDeclarations]
    rw [splitCh_joinSep (M.map fun p => p.1 ++ ':' :: p.2) hsep
      (fun hcon => hM (by simpa using hcon))]
    rw [foldl_declStep_map M [] h.2 h.1 (fun q _ => rfl)]
    rfl

theorem lookupS_eq_none_iff (k : LStr) (m : Styles) :
    lookupS k m = none ↔ ∀ q ∈ m, q.1 ≠ k := by
  induction m with
  | nil => simp [lookupS]
  | cons p rest ih =>
    obtain ⟨k2, v2⟩ := p
    rw [lookupS]
    by_cases h : k2 = k
    · simp only [if_pos h]
      constructor
      · intro hc; cases hc
      · intro hall
        exact absurd h (hall (k2, v2) (List.mem_cons_self _ _))
    · simp only [if_neg h]
      rw [ih]
      constructor
      · intro hall q hq
        rcases List.mem_cons.mp hq with h1 | h1
        · rw [h1]; exact h
        · exact hall q h1
      · intro hall q hq
        exact hall q (List.mem_cons_of_mem _ hq)

theorem objInsert_mem_eq (old : Styles) : ∀ (k v w : LStr),
    keysNodup old = true → lookupS k old = some w →
    objInsert old k v = old.map (fun p => if p.1 = k then (k, v) else p) := by
  induction old with
  | nil => intro k v w _ h; cases h
  | cons p rest ih =>
    intro k v w hnd h
    obtain ⟨k2, v2⟩ := p
    rw [keysNodup, Bool.and_eq_true, List.all_eq_true] at hnd
    rw [lookupS] at h
    rw [objInsert, List.map_cons]
    by_cases h2 : k2 = k
    · rw [if_pos h2]
      simp only [h2, if_pos rfl]
      congr 1
      refine ((List.map_congr_left ?_).trans (List.map_id rest)).symm
      intro q hq
      have hqk : q.1 ≠ k2 := by simpa using hnd.1 q hq
      rw [if_neg (h2 ▸ hqk)]
      rfl
    · rw [if_neg h2] at h
      rw [if_neg h2, if_neg h2, ih k v w hnd.2 h]

theorem updMap_cons_of_none (old : Styles) (k v : LStr) (rest : Styles)
    (h : lookupS k old = none) : updMap old ((k, v) :: rest) = updMap old rest := by
  apply List.map_congr_left
  intro p hp
  have hpk : p.1 ≠ k := (lookupS_eq_none_iff k old).mp h p hp
  rw [lookupS, if_neg (fun he => hpk he.symm)]

theorem mergeObj_eq (inc : Styles) : ∀ old : Styles,
    keysNodup old = true → keysNodup inc = true →
    mergeObj old inc = updMap old inc ++ newOnly old inc := by
  induction inc with
  | nil =>
    intro old _ _
    simp only [mergeObj, List.foldl_nil, newOnly, List.filter_nil, List.append_nil]
    rw [updMap]
    refine ((List.map_congr_left ?_).trans (List.map_id old)).symm
    intro p _
    rw [show lookupS p.1 ([] : Styles) = none from rfl]
    rfl
  | cons x rest ih =>
    intro old ho hn
    obtain ⟨k, v⟩ := x
    rw [keysNodup, Bool.and_eq_true, List.all_eq_true] at hn
    have hkrest : lookupS k rest = none :=
      (lookupS_eq_none_iff k rest).mpr (fun q hq => by simpa using hn.1 q hq)
    rw [mergeObj, List.foldl_cons,
      show List.foldl (fun m p => objInsert m p.1 p.2) (objInsert old k v) rest
        = mergeObj (objInsert old k v) rest from rfl]
    rw [ih (objInsert old k v) (keysNodup_objInsert _ _ _ ho) hn.2]
    cases hk : lookupS k old with
    | none =>
      rw [objInsert_not_mem old k v hk]
      have e1 : updMap (old ++ [(k, v)]) rest = updMap old rest ++ [(k, v)] := by
        rw [updMap, List.map_append]
        congr 1
        simp [hkrest]
      have e2 : newOnly (old ++ [(k, v)]) rest = newOnly old rest := by
        apply List.filter_congr
        intro p hp
        have hpk : p.1 ≠ k := by simpa using hn.1 p hp
        rw [lookupS_append, show lookupS p.1 [(k, v)]
            = none from by rw [lookupS, if_neg (fun he => hpk he.symm)]; rfl]
        rw [Option.or_none]
      rw [e1, e2, updMap_cons_of_none old k v rest hk]
      rw [show newOnly old ((k, v) :: rest)
          = (k, v) :: newOnly old rest from by
        rw [newOnly, List.filter_cons, newOnly]
        simp [hk]]
      simp
    | some w =>
      rw [objInsert_mem_eq old k v w ho hk]
      have e1 : updMap (old.map fun p => if p.1 = k then (k, v) else p) rest
          = updMap old ((k, v) :: rest) := by
        rw [updMap, updMap, List.map_map]
        apply List.map_congr_left
        intro p _
        by_cases hpk : p.1 = k
        · simp only [Function.comp, if_pos hpk]
          rw [lookupS, if_pos hpk.symm, hkrest]
          simp [hpk]
        · simp only [Function.comp, if_neg hpk]
          rw [lookupS, if_neg (fun he => hpk he.symm)]
      have e2 : newOnly (old.map fun p => if p.1 = k then (k, v) else p) rest
          = newOnly old rest := by
        apply List.filter_congr
        intro p hp
        have hpk : p.1 ≠ k := by simpa using hn.1 p hp
        rw [show old.map (fun p => if p.1 = k then (k, v) else p)
            = objInsert old k v from (objInsert_mem_eq old k v w ho hk).symm]
        rw [lookupS_objInsert_ne old v (fun he => hpk he.symm)]
      rw [e1, e2]
      rw [show newOnly old ((k, v) :: rest) = newOnly old rest from by
        rw [newOnly, List.filter_cons, newOnly]
        simp [hk]]

theorem style_after_apply (attrs : Attrs) (m : Styles) :
    getAttr (applyStylesToElement attrs m) styleT =
      some (serializeStyles
        (mergeObj (parseInlineStyle ((getAttr attrs styleT).getD [])) m)) := by
  rw [applyStylesToElement]
  exact lookupS_objInsert_self attrs styleT _

theorem attr_after_apply (attrs : Attrs) (m : Styles) {name : LStr}
    (h : name ≠ styleT) :
    getAttr (applyStylesToElement attrs m) name = getAttr attrs name := by
  rw [applyStylesToElement]
  exact lookupS_objInsert_ne attrs _ (fun he => h he.symm)

theorem foldl_declStep_filterMap (frags : List LStr) : ∀ m : Styles,
    frags.foldl declStep m =
      (frags.filterMap specKeep).foldl (fun m2 pv => objInsert m2 pv.1 pv.2) m := by
  induction frags with
  | nil => intro m; rfl
  | cons f rest ih =>
    intro m
    rw [List.foldl_cons, declStep_specKeep, List.filterMap_cons]
    cases specKeep f with
    | none => exact ih m
    | some pv => rw [List.foldl_cons]; exact ih _

theorem lookup_foldl_objInsert (L : Styles) : ∀ (m : Styles) (k : LStr),
    lookupS k (L.foldl (fun m2 pv => objInsert m2 pv.1 pv.2) m) =
      match L.reverse.find? (fun pv => pv.1 == k) with
      | some pv => some pv.2
      | none => lookupS k m := by
  induction L with
  | nil => intro m k; rfl
  | cons x L ih =>
    intro m k
    rw [List.foldl_cons, ih, List.reverse_cons, List.find?_append]
    cases hL : List.find? (fun pv => pv.1 == k) L.reverse with
    | some pv => rfl
    | none =>
      simp only [Option.none_or]
      cases hx : List.find? (fun pv => pv.1 == k) [x] with
      | some pv =>
        have := List.find?_some hx
        have hmem := List.mem_of_find?_eq_some hx
        simp only [List.mem_singleton] at hmem
        subst hmem
        rw [beq_iff_eq] at this
        rw [← this, lookupS_objInsert_self]
      | none =>
        have : (x.1 == k) = false := by
          by_cases hb : (x.1 == k) = true
          · rw [List.find?, hb] at hx; cases hx
          · simpa using hb
        rw [beq_eq_false_iff_ne] at this
        rw [lookupS_objInsert_ne m x.2 this]

theorem wfStyles_parts {m : Styles} (h : wfStyles m = true) :
    keysNodup m = true ∧ m.all wfEntry = true := by
  rw [wfStyles, Bool.and_eq_true] at h
  exact h

theorem lookup_after_apply (attrs : Attrs) (m : Styles) (hm : wfStyles m = true) :
    ∀ k v, lookupS k m = some v →
      lookupS k (parseInlineStyle
        ((getAttr (applyStylesToElement attrs m) styleT).getD [])) = some v := by
  intro k v hkv
  rw [style_after_apply, Option.getD_some, parseInline_eq_parseDecls]
  have hP : wfStyles (parseInlineStyle ((getAttr attrs styleT).getD [])) = true := by
    rw [parseInline_eq_parseDecls]
    exact wfStyles_parseStyleDeclarations _
  have hmerge : wfStyles (mergeObj
      (parseInlineStyle ((getAttr attrs styleT).getD [])) m) = true :=
    wfStyles_mergeObj m _ hP (wfStyles_parts hm).2
  rw [parse_serializeStyles hmerge]
  exact lookupS_mergeObj_mem m _ k v (wfStyles_parts hm).1 hkv

/-- C3: the inline style merge is last-write-wins.  Applying rule map `m1`
and then rule map `m2` to the same element leaves `m2`'s value in the
element's inline style for every property `m2` sets, and a single applied
rule map overwrites the element's pre-existing inline value for every
property it sets; nothing but call order is consulted (the rules'
selectors do not appear in `applyStylesToElement` at all). -/
theorem c3_merge_last_write_wins (attrs : Attrs) (m1 m2 : Styles)
    (h1 : wfStyles m1 = true) (h2 : wfStyles m2 = true) :
    (∀ k v, lookupS k m2 = some v →
      lookupS k (parseInlineStyle ((getAttr (applyStylesToElement
        (applyStylesToElement attrs m1) m2) styleT).getD [])) = some v) ∧
    (∀ k v, lookupS k m1 = some v →
      lookupS k (parseInlineStyle
        ((getAttr (applyStylesToElement attrs m1) styleT).getD [])) = some v) :=
  ⟨lookup_after_apply (applyStylesToElement attrs m1) m2 h2,
    lookup_after_apply attrs m1 h1⟩

/-- Witness for C3 at the spec's own P3/P4 inputs: inline `fill:red`, rule
`x:1` merged before rule `x:2`: `x` ends at `2` and `fill` set by a rule
would overwrite the inline value. -/
theorem c3_merge_last_write_wins_witness :
    wfStyles [(str "x", str "1")] = true ∧ wfStyles [(str "x", str "2")] = true ∧
    ((∀ k v, lookupS k [(str "x", str "2")] = some v →
      lookupS k (parseInlineStyle ((getAttr (applyStylesToElement
        (applyStylesToElement [(styleT, str "fill:red")] [(str "x", str "1")])
        [(str "x", str "2")]) styleT).getD [])) = some v) ∧
    (∀ k v, lookupS k [(str "x", str "1")] = some v →
      lookupS k (parseInlineStyle
        ((getAttr (applyStylesToElement [(styleT, str "fill:red")]
          [(str "x", str "1")]) styleT).getD [])) = some v)) :=
  ⟨by decide, by decide,
    c3_merge_last_write_wins [(styleT, str "fill:red")]
      [(str "x", str "1")] [(str "x", str "2")] (by decide) (by decide)⟩

/-- C5: the declaration parser splits on `;` and keeps a fragment exactly
when it has a `:` at positive index and non-empty trimmed property and
value (`specKeep` is literally that condition); dropped fragments
contribute nothing; the kept fragments are accumulated with
last-occurrence-wins value semantics; and the spec's P5 example parses to
exactly its two entries. -/
theorem c5_declaration_leniency :
    (∀ cs : LStr, parseStyleDeclarations cs =
      ((splitCh ';' cs).filterMap specKeep).foldl
        (fun m pv => objInsert m pv.1 pv.2) []) ∧
    (∀ cs k : LStr, lookupS k (parseStyleDeclarations cs) =
      match ((splitCh ';' cs).filterMap specKeep).reverse.find?
          (fun pv => pv.1 == k) with
      | some pv => some pv.2
      | none => none) ∧
    parseStyleDeclarations (str "color:red;;invalid;fill:green") =
      [(str "color", str "red"), (str "fill", str "green")] := by
  refine ⟨fun cs => ?_, fun cs k => ?_, by decide⟩
  · rw [parseStyleDeclarations]
    exact foldl_declStep_filterMap _ []
  · rw [parseStyleDeclarations, foldl_declStep_filterMap _ [],
      lookup_foldl_objInsert]
    cases ((splitCh ';' cs).filterMap specKeep).reverse.find?
        (fun pv => pv.1 == k) with
    | some pv => rfl
    | none => rfl

/-- C8: `parseStyleDeclarations` and `parseInlineStyle` are extensionally
equal: the early return of `parseInlineStyle` on the empty string returns
exactly what the shared fragment loop returns there. -/
theorem c8_parse_functions_agree :
    ∀ s : LStr, parseStyleDeclarations s = parseInlineStyle s :=
  fun s => (parseInline_eq_parseDecls s).symm

/-- C9: the merger writes the element's `style` attribute as the merged
map joined with `;`, where pre-existing inline properties keep their
relative order (values overwritten where the incoming map collides) and
the incoming map's new properties are appended in its declaration order. -/
theorem c9_serialization_order (attrs : Attrs) (incoming : Styles)
    (h : keysNodup incoming = true) :
    getAttr (applyStylesToElement attrs incoming) styleT =
      some (serializeStyles
        (updMap (parseInlineStyle ((getAttr attrs styleT).getD [])) incoming ++
          newOnly (parseInlineStyle ((getAttr attrs styleT).getD [])) incoming)) := by
  rw [style_after_apply]
  congr 2
  apply mergeObj_eq incoming _ ?_ h
  have hw := wfStyles_parseStyleDeclarations ((getAttr attrs styleT).getD [])
  rw [← parseInline_eq_parseDecls] at hw
  exact (wfStyles_parts hw).1

/-- Witness for C9: inline `fill:red;x:1` merged with `fill:blue`,`y:2`
serializes as `fill:blue;x:1;y:2`. -/
theorem c9_serialization_order_witness :
    keysNodup [(str "fill", str "blue"), (str "y", str "2")] = true ∧
    getAttr (applyStylesToElement [(styleT, str "fill:red;x:1")]
        [(str "fill", str "blue"), (str "y", str "2")]) styleT =
      some (serializeStyles
        (updMap (parseInlineStyle ((getAttr [(styleT, str "fill:red;x:1")]
            styleT).getD [])) [(str "fill", str "blue"), (str "y", str "2")] ++
          newOnly (parseInlineStyle ((getAttr [(styleT, str "fill:red;x:1")]
            styleT).getD [])) [(str "fill", str "blue"), (str "y", str "2")])) :=
  ⟨by decide,
    c9_serialization_order [(styleT, str "fill:red;x:1")]
      [(str "fill", str "blue"), (str "y", str "2")] (by decide)⟩

theorem elem_ind (P : Elem → Prop)
    (h : ∀ t a cs x, (∀ c ∈ cs, P c) → P (.mk t a cs x)) : ∀ e, P e := by
  intro e
  match e with
  | .mk t a cs x => exact h t a cs x (fun c hc => elem_ind P h c)

theorem isSome_map {α β : Type} (o : Option α) (f : α → β) :
    (o.map f).isSome = o.isSome := by
  cases o <;> rfl

theorem getAt_updAttrs_attrs (p : EPath) : ∀ (t : Elem) (f : Attrs → Attrs) (p' : EPath),
    (getAt (updAttrs t p f) p').map Elem.attrs =
      if p' = p then (getAt t p').map (fun e => f e.attrs)
      else (getAt t p').map Elem.attrs := by
  induction p with
  | nil =>
    intro t f p'
    obtain ⟨tg, a, cs, x⟩ := t
    cases p' with
    | nil => rw [if_pos rfl]; rfl
    | cons j q =>
      rw [if_neg (List.cons_ne_nil j q)]
      rfl
  | cons i pr ih =>
    intro t f p'
    obtain ⟨tg, a, cs, x⟩ := t
    cases hc : cs[i]? with
    | none =>
      simp only [updAttrs, hc]
      by_cases hp : p' = i :: pr
      · rw [if_pos hp, hp]
        simp only [getAt, Elem.children, hc]
        rfl
      · rw [if_neg hp]
    | some c =>
      simp only [updAttrs, hc]
      cases p' with
      | nil =>
        rw [if_neg (fun hcon => List.noConfusion hcon)]
        rfl
      | cons j q =>
        simp only [getAt, Elem.children]
        by_cases hj : j = i
        · subst hj
          have hlen : j < cs.length := by
            rcases List.getElem?_eq_some_iff.mp hc with ⟨hl, _⟩
            exact hl
          rw [List.getElem?_set_self hlen, hc]
          simp only
          rw [ih c f q]
          by_cases hq : q = pr
          · subst hq
            simp
          · simp [hq]
        · rw [List.getElem?_set_ne (fun he => hj he.symm)]
          simp [hj]

theorem getAt_updAttrs_isSome (p : EPath) (t : Elem) (f : Attrs → Attrs) (p' : EPath) :
    (getAt (updAttrs t p f) p').isSome = (getAt t p').isSome := by
  have h := getAt_updAttrs_attrs p t f p'
  by_cases hp : p' = p
  · rw [if_pos hp] at h
    rw [← isSome_map (getAt (updAttrs t p f) p') Elem.attrs, h,
      isSome_map]
  · rw [if_neg hp] at h
    rw [← isSome_map (getAt (updAttrs t p f) p') Elem.attrs, h,
      isSome_map]

theorem obsAt_updAttrs {α : Type} (g : Attrs → α) (p : EPath) (t : Elem)
    (f : Attrs → Attrs) (p' : EPath) :
    (getAt (updAttrs t p f) p').map (fun e => g e.attrs) =
      if p' = p then (getAt t p').map (fun e => g (f e.attrs))
      else (getAt t p').map (fun e => g e.attrs) := by
  have h := getAt_updAttrs_attrs p t f p'
  by_cases hp : p' = p
  · rw [if_pos hp] at h ⊢
    cases hU : getAt (updAttrs t p f) p' with
    | none =>
      rw [hU] at h
      cases hO : getAt t p' with
      | none => rfl
      | some e => rw [hO] at h; simp at h
    | some e2 =>
      rw [hU] at h
      cases hO : getAt t p' with
      | none => rw [hO] at h; simp at h
      | some e =>
        rw [hO] at h
        simp only [Option.map] at h ⊢
        injection h with h2
        rw [h2]
  · rw [if_neg hp] at h ⊢
    cases hU : getAt (updAttrs t p f) p' with
    | none =>
      rw [hU] at h
      cases hO : getAt t p' with
      | none => rfl
      | some e => rw [hO] at h; simp at h
    | some e2 =>
      rw [hU] at h
      cases hO : getAt t p' with
      | none => rw [hO] at h; simp at h
      | some e =>
        rw [hO] at h
        simp only [Option.map] at h ⊢
        injection h with h2
        rw [h2]

theorem map_obs_congr {α : Type} (o : Option Elem) (g1 g2 : Attrs → α)
    (h : ∀ a, g1 a = g2 a) :
    o.map (fun e => g1 e.attrs) = o.map (fun e => g2 e.attrs) := by
  cases o <;> simp [h]

theorem getAttr_removeAttr_self (a : Attrs) (k : LStr) :
    getAttr (removeAttr a k) k = none := by
  induction a with
  | nil => rfl
  | cons p rest ih =>
    obtain ⟨k2, v2⟩ := p
    rw [removeAttr, List.filter_cons]
    by_cases h : k2 = k
    · have : (decide ((k2, v2).1 ≠ k)) = false := by simp [h]
      rw [this, if_neg (by simp)]
      rw [removeAttr] at ih
      exact ih
    · have : (decide ((k2, v2).1 ≠ k)) = true := by simpa using h
      rw [this, if_pos rfl]
      rw [getAttr, lookupS, if_neg h]
      rw [removeAttr, getAttr] at ih
      exact ih

theorem classAt_applyAt (t : Elem) (p p' : EPath) (m : Styles) :
    (getAt (applyAt t p m) p').map (fun e => getAttr e.attrs classT) =
      (getAt t p').map (fun e => getAttr e.attrs classT) := by
  rw [applyAt]
  have h := obsAt_updAttrs (fun a => getAttr a classT) p t
    (fun a => applyStylesToElement a m) p'
  rw [h]
  by_cases hp : p' = p
  · rw [if_pos hp]
    exact map_obs_congr _ _ _ (fun a => attr_after_apply a m (by decide))
  · rw [if_neg hp]

theorem classAt_foldl_applyAt (L : List Rule) : ∀ (t : Elem) (p p' : EPath),
    (getAt (L.foldl (fun t2 r => applyAt t2 p r.styles) t) p').map
        (fun e => getAttr e.attrs classT) =
      (getAt t p').map (fun e => getAttr e.attrs classT) := by
  induction L with
  | nil => intro t p p'; rfl
  | cons r L ih =>
    intro t p p'
    rw [List.foldl_cons, ih, classAt_applyAt]

theorem classAt_removeClassAt (t : Elem) (p p' : EPath) :
    (getAt (removeClassAt t p) p').map (fun e => getAttr e.attrs classT) =
      if p' = p then (getAt t p').map (fun _ => (none : Option LStr))
      else (getAt t p').map (fun e => getAttr e.attrs classT) := by
  rw [removeClassAt]
  have h := obsAt_updAttrs (fun a => getAttr a classT) p t
    (fun a => removeAttr a classT) p'
  rw [h]
  by_cases hp : p' = p
  · rw [if_pos hp, if_pos hp]
    exact map_obs_congr _ _ _ (fun a => getAttr_removeAttr_self a classT)
  · rw [if_neg hp, if_neg hp]

theorem classAttrAt_applyAt (t : Elem) (p p' : EPath) (m : Styles) :
    classAttrAt (applyAt t p m) p' = classAttrAt t p' :=
  classAt_applyAt t p p' m

theorem classAttrAt_foldl_applyAt (L : List Rule) (t : Elem) (p p' : EPath) :
    classAttrAt (L.foldl (fun t2 r => applyAt t2 p r.styles) t) p' = classAttrAt t p' :=
  classAt_foldl_applyAt L t p p'

theorem classAttrAt_removeClassAt (t : Elem) (p p' : EPath) :
    classAttrAt (removeClassAt t p) p' =
      if p' = p then (getAt t p').map (fun _ => (none : Option LStr))
      else classAttrAt t p' :=
  classAt_removeClassAt t p p'

theorem classPathsL_mem (cs : List Elem) : ∀ (n i : Nat) (c : Elem), cs[i]? = some c →
    ((getAttr c.attrs classT).isSome = true → [n + i] ∈ classPathsL n cs) ∧
    (∀ q ∈ classPaths c, (n + i) :: q ∈ classPathsL n cs) := by
  induction cs with
  | nil => intro n i c hc; simp at hc
  | cons c0 rest ih =>
    intro n i c hc
    cases i with
    | zero =>
      rw [List.getElem?_cons_zero] at hc
      injection hc with hc2
      subst hc2
      constructor
      · intro hcls
        rw [classPathsL]
        apply List.mem_append.mpr
        left
        apply List.mem_append.mpr
        left
        rw [if_pos hcls]
        simp
      · intro q hq
        rw [classPathsL]
        apply List.mem_append.mpr
        left
        apply List.mem_append.mpr
        right
        rw [Nat.add_zero]
        exact List.mem_map.mpr ⟨q, hq, rfl⟩
    | succ i2 =>
      rw [List.getElem?_cons_succ] at hc
      have hmem := ih (n + 1) i2 c hc
      have he : n + 1 + i2 = n + (i2 + 1) := by omega
      constructor
      · intro hcls
        rw [classPathsL]
        apply List.mem_append.mpr
        right
        rw [← he]
        exact hmem.1 hcls
      · intro q hq
        rw [classPathsL]
        apply List.mem_append.mpr
        right
        rw [← he]
        exact hmem.2 q hq

theorem classPaths_complete (e : Elem) : ∀ (p : EPath) (c : Elem), getAt e p = some c →
    p ≠ [] → (getAttr c.attrs classT).isSome = true → p ∈ classPaths e := by
  induction e using elem_ind with
  | h tg a cs x ih =>
    intro p c hget hne hcls
    cases p with
    | nil => exact absurd rfl hne
    | cons i q =>
      rw [getAt] at hget
      simp only [Elem.children] at hget
      cases hc : cs[i]? with
      | none => rw [hc] at hget; cases hget
      | some c0 =>
        rw [hc] at hget
        simp only at hget
        rw [show classPaths (.mk tg a cs x) = classPathsL 0 cs from rfl]
        cases q with
        | nil =>
          rw [getAt] at hget
          injection hget with hg
          subst hg
          have hm := (classPathsL_mem cs 0 i c0 hc).1 hcls
          simpa using hm
        | cons j q2 =>
          have hq := ih c0 (List.getElem?_mem hc) (j :: q2) c hget
            (List.cons_ne_nil j q2) hcls
          have hm := (classPathsL_mem cs 0 i c0 hc).2 (j :: q2) hq
          simpa using hm

theorem isSome_getAt_foldl_applyAt (L : List Rule) : ∀ (t : Elem) (p p' : EPath),
    (getAt (L.foldl (fun t2 r => applyAt t2 p r.styles) t) p').isSome =
      (getAt t p').isSome := by
  induction L with
  | nil => intro t p p'; rfl
  | cons r L ih =>
    intro t p p'
    rw [List.foldl_cons, ih, applyAt, getAt_updAttrs_isSome]

theorem classPassStep_shape (rules : List Rule) (s : Elem × Nat) (p0 : EPath) :
    (classPassStep rules s p0).1 = s.1 ∨
    ∃ L : List Rule, (classPassStep rules s p0).1 =
      removeClassAt (L.foldl (fun t r => applyAt t p0 r.styles) s.1) p0 := by
  rw [classPassStep]
  cases getAt s.1 p0 with
  | none => exact Or.inl rfl
  | some e =>
    simp only
    cases getAttr e.attrs classT with
    | none => exact Or.inl rfl
    | some cls =>
      simp only
      by_cases hcls : cls = []
      · rw [if_pos hcls]
        exact Or.inl rfl
      · rw [if_neg hcls]
        exact Or.inr ⟨_, rfl⟩

theorem isSome_getAt_classPassStep (rules : List Rule) (s : Elem × Nat) (p0 p : EPath) :
    (getAt (classPassStep rules s p0).1 p).isSome = (getAt s.1 p).isSome := by
  rcases classPassStep_shape rules s p0 with h | ⟨L, h⟩
  · rw [h]
  · rw [h, removeClassAt, getAt_updAttrs_isSome, isSome_getAt_foldl_applyAt]

theorem classAttrAt_classPassStep_ne (rules : List Rule) (s : Elem × Nat)
    {p0 p : EPath} (hne : p ≠ p0) :
    classAttrAt (classPassStep rules s p0).1 p = classAttrAt s.1 p := by
  rcases classPassStep_shape rules s p0 with h | ⟨L, h⟩
  · rw [h]
  · rw [h, classAttrAt_removeClassAt, if_neg hne, classAttrAt_foldl_applyAt]

theorem classPassStep_cleared_self (rules : List Rule) (s : Elem × Nat) (p0 : EPath) :
    ClassCleared (classPassStep rules s p0).1 p0 := by
  intro v hv
  rw [classPassStep] at hv
  cases hg : getAt s.1 p0 with
  | none =>
    rw [hg] at hv
    simp only at hv
    rw [classAttrAt, hg] at hv
    cases hv
  | some e =>
    rw [hg] at hv
    simp only at hv
    cases ha : getAttr e.attrs classT with
    | none =>
      rw [ha] at hv
      simp only at hv
      rw [classAttrAt, hg] at hv
      simp only [Option.map] at hv
      injection hv with hv2
      left
      rw [← hv2, ha]
    | some cls =>
      rw [ha] at hv
      simp only at hv
      by_cases hcls : cls = []
      · rw [if_pos hcls] at hv
        rw [classAttrAt, hg] at hv
        simp only [Option.map] at hv
        injection hv with hv2
        right
        rw [← hv2, ha, hcls]
      · rw [if_neg hcls] at hv
        simp only at hv
        rw [classAttrAt_removeClassAt, if_pos rfl] at hv
        cases hO : getAt ((rules.filter fun r =>
            decide (r.selector = '.' :: cls ∨
              r.selector = str "*[class~=\"" ++ cls ++ str "\"]")).foldl
            (fun t r => applyAt t p0 r.styles) s.1) p0 with
        | none => rw [hO] at hv; cases hv
        | some e2 =>
          rw [hO] at hv
          simp only [Option.map] at hv
          injection hv with hv2
          left
          exact hv2.symm

theorem classPassStep_cleared_pres (rules : List Rule) (s : Elem × Nat)
    (p0 p : EPath) (h : ClassCleared s.1 p) :
    ClassCleared (classPassStep rules s p0).1 p := by
  by_cases hp : p = p0
  · rw [hp]; exact classPassStep_cleared_self rules s p0
  · intro v hv
    rw [classAttrAt_classPassStep_ne rules s hp] at hv
    exact h v hv

theorem classPass_cleared (rules : List Rule) (L : List EPath) :
    ∀ (t : Elem) (n : Nat) (p : EPath), (p ∈ L ∨ ClassCleared t p) →
      ClassCleared (L.foldl (classPassStep rules) (t, n)).1 p := by
  induction L with
  | nil =>
    intro t n p h
    rcases h with h | h
    · cases h
    · exact h
  | cons p0 L ih =>
    intro t n p h
    rw [List.foldl_cons]
    have hstep : L.foldl (classPassStep rules) (classPassStep rules (t, n) p0) =
        L.foldl (classPassStep rules)
          ((classPassStep rules (t, n) p0).1, (classPassStep rules (t, n) p0).2) := by
      rfl
    rw [hstep]
    apply ih
    rcases h with h | h
    · rcases List.mem_cons.mp h with h1 | h1
      · right
        rw [h1]
        exact classPassStep_cleared_self rules (t, n) p0
      · exact Or.inl h1
    · exact Or.inr (classPassStep_cleared_pres rules (t, n) p0 p h)

theorem isSome_getAt_classPass (rules : List Rule) (L : List EPath) :
    ∀ (t : Elem) (n : Nat) (p : EPath),
      (getAt (L.foldl (classPassStep rules) (t, n)).1 p).isSome =
        (getAt t p).isSome := by
  induction L with
  | nil => intro t n p; rfl
  | cons p0 L ih =>
    intro t n p
    rw [List.foldl_cons,
      show classPassStep rules (t, n) p0 =
        ((classPassStep rules (t, n) p0).1, (classPassStep rules (t, n) p0).2) from rfl,
      ih, isSome_getAt_classPassStep]

theorem classPass_all_cleared (rules : List Rule) (t : Elem) (p : EPath)
    (hp : p ≠ []) : ClassCleared (classPass rules t).1 p := by
  rw [classPass]
  apply classPass_cleared
  by_cases hmem : p ∈ classPaths t
  · exact Or.inl hmem
  · right
    intro v hv
    rw [classAttrAt] at hv
    cases hO : getAt t p with
    | none => rw [hO] at hv; cases hv
    | some e2 =>
      rw [hO] at hv
      simp only [Option.map] at hv
      injection hv with hv2
      subst hv2
      cases hA : getAttr e2.attrs classT with
      | none => exact Or.inl rfl
      | some cls =>
        exfalso
        exact hmem (classPaths_complete t p e2 hO hp (by rw [hA]; rfl))

/-- C1 (counterexample): the claim says every element with a `class`
attribute — including the empty string value — loses it.  But the code's
class-fallback pass guards the whole block, `removeAttribute('class')`
included, with the truthiness test `if (className)`, which is false for
the empty string: converting `<svg><rect class=""/></svg>` leaves the
rect's `class` attribute in place (value still empty). -/
theorem c1_class_stripping_counterexample :
    classAttrAt (convertEmbeddedCSSToInline qNil svgEmptyClass).tree [0] =
      some (some []) := by decide

/-- C1 (amended): after a conversion, every element strictly below the
root either has no `class` attribute or retains a `class` attribute whose
value is the empty string (the latter exactly when it was empty in the
input, since the truthy guard skips removal); equivalently no non-empty
`class` value survives below the root. -/
theorem c1_class_stripping_amended (q : Elem → LStr → List EPath) (svg : Elem)
    (p : EPath) (hp : p ≠ []) :
    ∀ e, getAt (convertEmbeddedCSSToInline q svg).tree p = some e →
      getAttr e.attrs classT = none ∨ getAttr e.attrs classT = some [] := by
  intro e he
  have he2 : getAt (classPass
      ((styleTexts svg).foldl (fun acc txt => acc ++ parseCSS txt) [])
      (structuralPass q
        ((styleTexts svg).foldl (fun acc txt => acc ++ parseCSS txt) [])
        (removeStyleElems svg)).1).1 p = some e := he
  have hcl := classPass_all_cleared
    ((styleTexts svg).foldl (fun acc txt => acc ++ parseCSS txt) [])
    (structuralPass q
      ((styleTexts svg).foldl (fun acc txt => acc ++ parseCSS txt) [])
      (removeStyleElems svg)).1 p hp
  apply hcl
  rw [classAttrAt, he2]
  rfl

/-- Witness for the amended C1 at the spec's E2E-1 input and the path of
its rect element. -/
theorem c1_class_stripping_amended_witness :
    ([0] : EPath) ≠ [] ∧
    (∀ e, getAt (convertEmbeddedCSSToInline qE2E svgE2E).tree [0] = some e →
      getAttr e.attrs classT = none ∨ getAttr e.attrs classT = some []) :=
  ⟨by decide, c1_class_stripping_amended qE2E svgE2E [0] (by decide)⟩

theorem removeStyleElems_tag (e : Elem) : (removeStyleElems e).tag = e.tag := by
  obtain ⟨tg, a, cs, x⟩ := e
  rfl

theorem removeStyleElemsL_mem (cs : List Elem) :
    ∀ d ∈ removeStyleElemsL cs, ∃ c ∈ cs, c.tag ≠ styleT ∧ d = removeStyleElems c := by
  induction cs with
  | nil => intro d hd; cases hd
  | cons c rest ih =>
    intro d hd
    rw [removeStyleElemsL] at hd
    rcases List.mem_append.mp hd with h | h
    · by_cases hc : c.tag = styleT
      · rw [if_pos hc] at h; cases h
      · rw [if_neg hc] at h
        rcases List.mem_cons.mp h with h1 | h1
        · exact ⟨c, List.mem_cons_self c rest, hc, h1⟩
        · cases h1
    · obtain ⟨c2, hc2, hne, hd2⟩ := ih d h
      exact ⟨c2, List.mem_cons_of_mem c hc2, hne, hd2⟩

theorem noStyle_below (e : Elem) : ∀ (p : EPath) (d : Elem), p ≠ [] →
    getAt (removeStyleElems e) p = some d → d.tag ≠ styleT := by
  induction e using elem_ind with
  | h tg a cs x ih =>
    intro p d hne hget
    cases p with
    | nil => exact absurd rfl hne
    | cons i q =>
      rw [show removeStyleElems (.mk tg a cs x)
          = .mk tg a (removeStyleElemsL cs) x from rfl, getAt] at hget
      simp only [Elem.children] at hget
      cases hc : (removeStyleElemsL cs)[i]? with
      | none => rw [hc] at hget; cases hget
      | some d0 =>
        rw [hc] at hget
        simp only at hget
        obtain ⟨c, hcmem, hcne, hd0⟩ :=
          removeStyleElemsL_mem cs d0 (List.getElem?_mem hc)
        cases q with
        | nil =>
          rw [getAt] at hget
          injection hget with hg
          subst hg
          rw [hd0, removeStyleElems_tag]
          exact hcne
        | cons j q2 =>
          subst hd0
          exact ih c hcmem (j :: q2) d (List.cons_ne_nil j q2) hget

theorem foldl_append_flatten {α β : Type} (f : α → List β) (L : List α) :
    ∀ acc : List β, L.foldl (fun a x => a ++ f x) acc = acc ++ (L.map f).flatten := by
  induction L with
  | nil => intro acc; simp
  | cons x L ih =>
    intro acc
    rw [List.foldl_cons, ih, List.map_cons, List.flatten_cons, List.append_assoc]

/-- C2: after extraction the tree obtained by detaching every style
element contains no style element at all (root included, as the root is
the `svg` element), and the accumulated rule list is exactly the
concatenation, in document order, of `parseCSS` of each style block's
text — one parsed rule per well-formed `selector{declarations}` block,
with every rule of an earlier block preceding every rule of a later
block. -/
theorem c2_extraction_complete (q : Elem → LStr → List EPath) (svg : Elem)
    (h : svg.tag ≠ styleT) :
    (∀ (p : EPath) (d : Elem), getAt (removeStyleElems svg) p = some d →
      d.tag ≠ styleT) ∧
    (convertEmbeddedCSSToInline q svg).cssRules =
      ((styleTexts svg).map parseCSS).flatten := by
  constructor
  · intro p d hget
    cases hp : p with
    | nil =>
      subst hp
      rw [getAt] at hget
      injection hget with hg
      subst hg
      rw [removeStyleElems_tag]
      exact h
    | cons i qq =>
      subst hp
      exact noStyle_below svg (i :: qq) d (List.cons_ne_nil i qq) hget
  · have hrules : (convertEmbeddedCSSToInline q svg).cssRules =
        (styleTexts svg).foldl (fun acc txt => acc ++ parseCSS txt) [] := rfl
    rw [hrules, foldl_append_flatten]
    rfl

/-- Witness for C2 at the spec's E2E-1 input: the root is the svg
element. -/
theorem c2_extraction_complete_witness :
    svgE2E.tag ≠ styleT ∧
    ((∀ (p : EPath) (d : Elem), getAt (removeStyleElems svgE2E) p = some d →
      d.tag ≠ styleT) ∧
    (convertEmbeddedCSSToInline qE2E svgE2E).cssRules =
      ((styleTexts svgE2E).map parseCSS).flatten) :=
  ⟨by decide, c2_extraction_complete qE2E svgE2E (by decide)⟩

theorem structuralPass_counts (q : Elem → LStr → List EPath) (rules : List Rule) :
    ∀ (t : Elem) (n c0 : Nat),
    (rules.foldl (structuralPassStep q) (t, n, c0)).2.1 = n + pass1MergeCount q t rules ∧
    (rules.foldl (structuralPassStep q) (t, n, c0)).2.2 = c0 + rules.length ∧
    (rules.foldl (structuralPassStep q) (t, n, c0)).1 =
      (rules.foldl (structuralPassStep q) (t, 0, 0)).1 := by
  induction rules with
  | nil =>
    intro t n c0
    exact ⟨by simp [pass1MergeCount], by simp, rfl⟩
  | cons r rs ih =>
    intro t n c0
    rw [List.foldl_cons, List.foldl_cons,
      show structuralPassStep q (t, n, c0) r
        = (applyToMatches t (q t r.selector) r.styles,
            n + (q t r.selector).length, c0 + 1) from rfl,
      show structuralPassStep q (t, 0, 0) r
        = (applyToMatches t (q t r.selector) r.styles,
            0 + (q t r.selector).length, 0 + 1) from rfl]
    obtain ⟨ih1, ih2, ih3⟩ := ih (applyToMatches t (q t r.selector) r.styles)
      (n + (q t r.selector).length) (c0 + 1)
    obtain ⟨_, _, ih3b⟩ := ih (applyToMatches t (q t r.selector) r.styles)
      (0 + (q t r.selector).length) (0 + 1)
    refine ⟨?_, ?_, ?_⟩
    · rw [ih1, pass1MergeCount]
      omega
    · rw [ih2, List.length_cons]
      omega
    · rw [ih3, ih3b]

theorem classPassStep_shift (rules : List Rule) (t : Elem) (n : Nat) (p : EPath) :
    classPassStep rules (t, n) p =
      ((classPassStep rules (t, 0) p).1, n + (classPassStep rules (t, 0) p).2) := by
  rw [classPassStep, classPassStep]
  cases getAt t p with
  | none => simp
  | some e =>
    simp only
    cases getAttr e.attrs classT with
    | none => simp
    | some cls =>
      simp only
      by_cases hcls : cls = []
      · rw [if_pos hcls, if_pos hcls]
        simp
      · rw [if_neg hcls, if_neg hcls]
        simp

theorem classPass_counts (rules : List Rule) (L : List EPath) :
    ∀ (t : Elem) (n : Nat),
    (L.foldl (classPassStep rules) (t, n)).2 = n + pass2MergeCount rules t L := by
  induction L with
  | nil => intro t n; simp [pass2MergeCount]
  | cons p L ih =>
    intro t n
    rw [List.foldl_cons, classPassStep_shift, ih, pass2MergeCount]
    omega

/-- C4: `convertedStyles` equals the total number of extracted rules (one
increment per rule in the structural pass, whatever `q` returns, matches
or none), and `processedElements` is the sum of the structural pass's
merge count (per rule, the number of query matches at the moment the rule
runs) and the class-fallback pass's merge count (per class-carrying
element, the number of rules whose selector textually matches its class
token) — double-counting a (rule, element) pair whenever both passes
merge it. -/
theorem c4_counters (q : Elem → LStr → List EPath) (svg : Elem) :
    (convertEmbeddedCSSToInline q svg).convertedStyles =
      (convertEmbeddedCSSToInline q svg).cssRules.length ∧
    (convertEmbeddedCSSToInline q svg).processedElements =
      pass1MergeCount q (removeStyleElems svg)
        (convertEmbeddedCSSToInline q svg).cssRules +
      pass2MergeCount (convertEmbeddedCSSToInline q svg).cssRules
        (structuralPass q (convertEmbeddedCSSToInline q svg).cssRules
          (removeStyleElems svg)).1
        (classPaths (structuralPass q (convertEmbeddedCSSToInline q svg).cssRules
          (removeStyleElems svg)).1) := by
  have hr : (convertEmbeddedCSSToInline q svg).cssRules =
      (styleTexts svg).foldl (fun acc txt => acc ++ parseCSS txt) [] := rfl
  have h := structuralPass_counts q
    ((styleTexts svg).foldl (fun acc txt => acc ++ parseCSS txt) [])
    (removeStyleElems svg) 0 0
  have h1 : (structuralPass q
      ((styleTexts svg).foldl (fun acc txt => acc ++ parseCSS txt) [])
      (removeStyleElems svg)).2.1 =
      0 + pass1MergeCount q (removeStyleElems svg)
        ((styleTexts svg).foldl (fun acc txt => acc ++ parseCSS txt) []) := h.1
  have h12 : (structuralPass q
      ((styleTexts svg).foldl (fun acc txt => acc ++ parseCSS txt) [])
      (removeStyleElems svg)).2.2 =
      0 + ((styleTexts svg).foldl (fun acc txt => acc ++ parseCSS txt) []).length :=
    h.2.1
  have h2 : (classPass ((styleTexts svg).foldl (fun acc txt => acc ++ parseCSS txt) [])
      (structuralPass q ((styleTexts svg).foldl (fun acc txt => acc ++ parseCSS txt) [])
        (removeStyleElems svg)).1).2 =
      0 + pass2MergeCount
        ((styleTexts svg).foldl (fun acc txt => acc ++ parseCSS txt) [])
        (structuralPass q ((styleTexts svg).foldl (fun acc txt => acc ++ parseCSS txt) [])
          (removeStyleElems svg)).1
        (classPaths (structuralPass q
          ((styleTexts svg).foldl (fun acc txt => acc ++ parseCSS txt) [])
          (removeStyleElems svg)).1) :=
    classPass_counts ((styleTexts svg).foldl (fun acc txt => acc ++ parseCSS txt) [])
      (classPaths (structuralPass q
        ((styleTexts svg).foldl (fun acc txt => acc ++ parseCSS txt) [])
        (removeStyleElems svg)).1)
      (structuralPass q ((styleTexts svg).foldl (fun acc txt => acc ++ parseCSS txt) [])
        (removeStyleElems svg)).1 0
  constructor
  · show (structuralPass q
        ((styleTexts svg).foldl (fun acc txt => acc ++ parseCSS txt) [])
        (removeStyleElems svg)).2.2 =
      (convertEmbeddedCSSToInline q svg).cssRules.length
    rw [hr, h12]
    omega
  · show (structuralPass q
        ((styleTexts svg).foldl (fun acc txt => acc ++ parseCSS txt) [])
        (removeStyleElems svg)).2.1 +
      (classPass ((styleTexts svg).foldl (fun acc txt => acc ++ parseCSS txt) [])
        (structuralPass q
          ((styleTexts svg).foldl (fun acc txt => acc ++ parseCSS txt) [])
          (removeStyleElems svg)).1).2 =
      pass1MergeCount q (removeStyleElems svg)
        (convertEmbeddedCSSToInline q svg).cssRules +
      pass2MergeCount (convertEmbeddedCSSToInline q svg).cssRules
        (structuralPass q (convertEmbeddedCSSToInline q svg).cssRules
          (removeStyleElems svg)).1
        (classPaths (structuralPass q (convertEmbeddedCSSToInline q svg).cssRules
          (removeStyleElems svg)).1)
    rw [hr, h1, h2]
    omega

/-- C6: with the input non-blank, the conversion fails exactly when the
external document parse yields a `parsererror` document or a document
without an `svg` element; such a failure produces no converted output
(the `failed` outcome carries only the message).  Whenever the parse
succeeds, the conversion succeeds unconditionally: malformed CSS,
unmatched selectors and absent inline styles are all absorbed by the
total parsing/matching functions and never raise. -/
theorem c6_parse_error_exactness (parse : LStr → ParseOutcome)
    (q : Elem → LStr → List EPath) (input : LStr) (h : jsTrim input ≠ []) :
    ((∃ msg, convertSVG parse q input = .failed msg) ↔
      (parse (jsTrim input) = .withParserError ∨
        parse (jsTrim input) = .noSvgElement)) ∧
    (∀ svg, parse (jsTrim input) = .parsed svg →
      convertSVG parse q input =
        .succeeded (convertEmbeddedCSSToInline q svg).tree
          (convertEmbeddedCSSToInline q svg)) := by
  rw [convertSVG]
  simp only [if_neg h]
  cases hp : parse (jsTrim input) with
  | withParserError =>
    refine ⟨⟨fun _ => Or.inl rfl, fun _ => ⟨str "Invalid SVG format", rfl⟩⟩, ?_⟩
    intro svg hsvg
    cases hsvg
  | noSvgElement =>
    refine ⟨⟨fun _ => Or.inr rfl, fun _ => ⟨str "No SVG element found", rfl⟩⟩, ?_⟩
    intro svg hsvg
    cases hsvg
  | parsed svg =>
    constructor
    · constructor
      · intro ⟨msg, hmsg⟩
        cases hmsg
      · intro hor
        rcases hor with hor | hor <;> cases hor
    · intro svg2 hsvg
      injection hsvg with he
      rw [he]

/-- Witness for C6 with a parser collaborator that reports a parse error
on every input. -/
theorem c6_parse_error_exactness_witness :
    jsTrim (str "x") ≠ [] ∧
    (((∃ msg, convertSVG (fun _ => ParseOutcome.withParserError) qNil (str "x") =
        .failed msg) ↔
      ((fun _ => ParseOutcome.withParserError) (jsTrim (str "x")) = .withParserError ∨
        (fun _ => ParseOutcome.withParserError) (jsTrim (str "x")) = .noSvgElement)) ∧
    (∀ svg, (fun _ => ParseOutcome.withParserError) (jsTrim (str "x")) = .parsed svg →
      convertSVG (fun _ => ParseOutcome.withParserError) qNil (str "x") =
        .succeeded (convertEmbeddedCSSToInline qNil svg).tree
          (convertEmbeddedCSSToInline qNil svg))) :=
  ⟨by decide,
    c6_parse_error_exactness (fun _ => ParseOutcome.withParserError) qNil (str "x")
      (by decide)⟩

/-- C10: blank (empty or whitespace-only) input returns the early `ready`
outcome: no error is raised and no converted markup or statistics are
produced — the outcome is distinct from both the failure and the success
constructors. -/
theorem c10_blank_input_early_return (parse : LStr → ParseOutcome)
    (q : Elem → LStr → List EPath) (input : LStr) (h : jsTrim input = []) :
    convertSVG parse q input = .ready ∧
    (∀ msg, ConvertStatus.ready ≠ .failed msg) ∧
    (∀ t r, ConvertStatus.ready ≠ .succeeded t r) := by
  refine ⟨?_, fun msg hmsg => ConvertStatus.noConfusion hmsg,
    fun t r hr => ConvertStatus.noConfusion hr⟩
  rw [convertSVG]
  simp only [if_pos h]

/-- Witness for C10 at a whitespace-only input. -/
theorem c10_blank_input_early_return_witness :
    jsTrim (str "  ") = [] ∧
    (convertSVG (fun _ => ParseOutcome.withParserError) qNil (str "  ") = .ready ∧
    (∀ msg, ConvertStatus.ready ≠ .failed msg) ∧
    (∀ t r, ConvertStatus.ready ≠ .succeeded t r)) :=
  ⟨by decide,
    c10_blank_input_early_return (fun _ => ParseOutcome.withParserError) qNil
      (str "  ") (by decide)⟩

theorem hasGtLt_tail {c : Char} {rest : LStr} (h : hasGtLt (c :: rest) = false) :
    hasGtLt rest = false := by
  rw [hasGtLt, Bool.or_eq_false_iff] at h
  exact h.2

theorem hasGtLt_cons_true (c : Char) (rest : LStr) (h : hasGtLt rest = true) :
    hasGtLt (c :: rest) = true := by
  rw [hasGtLt, h, Bool.or_true]

theorem hasGtLt_append_gtlt (pre suf : LStr) :
    hasGtLt (pre ++ '>' :: '<' :: suf) = true := by
  induction pre with
  | nil =>
    rw [List.nil_append, hasGtLt]
    simp [startsLt]
  | cons c pre ih =>
    rw [List.cons_append]
    exact hasGtLt_cons_true c _ ih

theorem startsLt_insertNL (cs : LStr) : startsLt (insertNL cs) = startsLt cs := by
  match cs with
  | [] => rfl
  | [c] => rfl
  | c1 :: c2 :: rest =>
    rw [insertNL]
    by_cases h : c1 = '>' ∧ c2 = '<'
    · rw [if_pos h, startsLt, startsLt, h.1]
    · rw [if_neg h, startsLt, startsLt]

theorem insertNL_noGtLt : ∀ cs : LStr, hasGtLt (insertNL cs) = false
  | [] => rfl
  | [c] => by
    rw [insertNL, hasGtLt, hasGtLt]
    simp [startsLt]
  | c1 :: c2 :: rest => by
    rw [insertNL]
    by_cases h : c1 = '>' ∧ c2 = '<'
    · rw [if_pos h]
      have ih := insertNL_noGtLt rest
      rw [hasGtLt, hasGtLt, hasGtLt, ih]
      simp [startsLt, startsLt_insertNL]
    · rw [if_neg h]
      have ih := insertNL_noGtLt (c2 :: rest)
      rw [hasGtLt, ih, Bool.or_false, startsLt_insertNL, startsLt]
      by_cases h1 : c1 = '>'
      · have h2 : ¬ c2 = '<' := fun hc2 => h ⟨h1, hc2⟩
        simp [h2]
      · simp [h1]

theorem pairScanGo_noop (M : LStr → Option (LStr × LStr)) (sep : LStr)
    (hM : ∀ cs t r, M cs = some (t, r) →
      (∃ pre, cs = pre ++ '>' :: r) ∧ ∃ x, cs = '<' :: x) :
    ∀ (fuel : Nat) (cs : LStr), hasGtLt cs = false → pairScanGo M sep fuel cs = cs := by
  intro fuel
  induction fuel with
  | zero => intro cs _; rfl
  | succ fuel ih =>
    intro cs h
    cases cs with
    | nil => rfl
    | cons c rest =>
      rw [pairScanGo]
      cases h1 : M (c :: rest) with
      | none =>
        simp only
        rw [ih rest (hasGtLt_tail h)]
      | some tr =>
        obtain ⟨t1, r1⟩ := tr
        simp only
        cases h2 : M r1 with
        | none =>
          simp only
          rw [ih rest (hasGtLt_tail h)]
        | some tr2 =>
          exfalso
          obtain ⟨⟨pre, hpre⟩, _⟩ := hM _ _ _ h1
          obtain ⟨_, x, hx⟩ := hM _ _ _ h2
          rw [hx] at hpre
          have hg := hasGtLt_append_gtlt pre x
          rw [← hpre] at hg
          rw [hg] at h
          cases h

theorem matchCloseTag_shape {cs t r : LStr} (h : matchCloseTag cs = some (t, r)) :
    (∃ pre, cs = pre ++ '>' :: r) ∧ ∃ x, cs = '<' :: x := by
  rw [matchCloseTag.eq_def] at h
  split at h
  · rename_i rest
    split at h
    · cases h
    · split at h
      · rename_i r2 heq
        injection h with h1
        rw [Prod.mk.injEq] at h1
        obtain ⟨ha, hb⟩ := h1
        constructor
        · refine ⟨'<' :: '/' :: rest.takeWhile isAlnum, ?_⟩
          have hr : rest = rest.takeWhile isAlnum ++ '>' :: r := by
            rw [← hb, ← heq, List.takeWhile_append_dropWhile]
          rw [List.cons_append, List.cons_append, ← hr]
        · exact ⟨'/' :: rest, rfl⟩
      · cases h
  · cases h

theorem matchOpenTag_shape {cs t r : LStr} (h : matchOpenTag cs = some (t, r)) :
    (∃ pre, cs = pre ++ '>' :: r) ∧ ∃ x, cs = '<' :: x := by
  rw [matchOpenTag.eq_def] at h
  split at h
  · rename_i c rest
    split at h
    · split at h
      · rename_i r2 heq
        injection h with h1
        rw [Prod.mk.injEq] at h1
        obtain ⟨ha, hb⟩ := h1
        constructor
        · refine ⟨'<' :: c :: rest.takeWhile (· != '>'), ?_⟩
          have hr : rest = rest.takeWhile (· != '>') ++ '>' :: r := by
            rw [← hb, ← heq, List.takeWhile_append_dropWhile]
          rw [List.cons_append, List.cons_append, ← hr]
        · exact ⟨c :: rest, rfl⟩
      · cases h
    · cases h
  · cases h

/-- C7 (counterexample): between an opening tag and an immediately
following opening tag the code inserts only a newline, never the claimed
two-space indent: `formatXML("<a><b>")` is `"<a>\n<b>"`, not
`"<a>\n  <b>"`.  The first replace has already turned every `><` into
`>\n<`, so the third replace's opening-tag pattern can never match. -/
theorem c7_format_counterexample :
    formatXML (str "<a><b>") = str "<a>\n<b>" ∧
    formatXML (str "<a><b>") ≠ str "<a>\n  <b>" := by
  constructor
  · decide
  · decide

/-- C7 (amended): `formatXML` inserts a newline at every `><` boundary —
which already places consecutive closing tags (and consecutive opening
tags) on separate lines — and strips two spaces immediately preceding a
closing tag; the second and third replaces (closing-pair separation and
opening-pair newline-plus-indent) never fire, because after the first
replace the string contains no `><` at all. -/
theorem c7_format_amended (cs : LStr) :
    formatXML cs = stripCloseIndent (insertNL cs) ∧
    hasGtLt (insertNL cs) = false := by
  have h1 := insertNL_noGtLt cs
  have h2 : sepCloseTags (insertNL cs) = insertNL cs :=
    pairScanGo_noop matchCloseTag ['\n']
      (fun _ _ _ h => matchCloseTag_shape h) _ _ h1
  have h3 : sepOpenTags (insertNL cs) = insertNL cs :=
    pairScanGo_noop matchOpenTag ('\n' :: str "  ")
      (fun _ _ _ h => matchOpenTag_shape h) _ _ h1
  refine ⟨?_, h1⟩
  rw [formatXML, h2, h3]
